import Mathlib

/-!
Verification of the JSON-to-spreadsheet reconciliation engine of
`finalApplication.py` (tab 2: `norm`, `canonical_field`, `canonical_section`,
`flatten_json`, `detect_sections`, `pick_value`, the column map and the
writer loop).  Strings are modelled as lists of characters; Python's
`str.upper` is modelled on ASCII letters, which covers every vocabulary
string and header label the program manipulates.
-/

/-- Strings are modelled as lists of characters. -/
abbrev Str := List Char

/-- The six characters Python's `str.strip`/`str.split` (and the regex
class `\s` on ASCII text) treat as whitespace. -/
def isPyWs (c : Char) : Bool :=
  c.toNat = 32 || c.toNat = 9 || c.toNat = 10 || c.toNat = 13 || c.toNat = 11 || c.toNat = 12

/-- ASCII decimal digit, the relevant fragment of the regex class `\d`. -/
def isDig (c : Char) : Bool :=
  48 ≤ c.toNat && c.toNat ≤ 57

/-- ASCII lowercase letter. -/
def isLow (c : Char) : Bool :=
  97 ≤ c.toNat && c.toNat ≤ 122

/-- Python `str.upper` on one ASCII character. -/
def toUp (c : Char) : Char :=
  if isLow c then Char.ofNat (c.toNat - 32) else c

/-- `str.replace("\n", " ")`: a one-character replacement is a map. -/
def replaceNl (s : Str) : Str :=
  s.map (fun c => if c = '\n' then ' ' else c)

/-- `str.strip()`: drop leading and trailing whitespace. -/
def pstrip (s : Str) : Str :=
  ((s.dropWhile isPyWs).reverse.dropWhile isPyWs).reverse

/-- `str.replace("# ", "#")`: left-to-right, non-overlapping; the output is
never rescanned, scanning resumes after each replaced occurrence. -/
def replHS : Str → Str
  | [] => []
  | [c] => [c]
  | c :: d :: r =>
    if c = '#' && d = ' ' then '#' :: replHS r
    else c :: replHS (d :: r)

/-- `str.split()`: whitespace-separated words, empty words dropped.
The accumulator holds the current word reversed. -/
def wordsAux : Str → Str → List Str
  | acc, [] => if acc = [] then [] else [acc.reverse]
  | acc, c :: cs =>
    if isPyWs c then
      if acc = [] then wordsAux [] cs else acc.reverse :: wordsAux [] cs
    else wordsAux (c :: acc) cs

/-- `" ".join(ws)`. -/
def joinSp : List Str → Str
  | [] => []
  | [w] => w
  | w :: ws => w ++ ' ' :: joinSp ws

/-- `norm` from the source: collapse whitespace, contract `"# "` to `"#"`,
uppercase; empty for falsy input (`None` is modelled as the empty string
by the callers below). -/
def norm (s : Str) : Str :=
  if s = [] then []
  else (joinSp (wordsAux [] (replHS (pstrip (replaceNl s))))).map toUp

/-- `FIELD_SYNONYMS` from the source. -/
def FIELD_SYNONYMS : List (Str × Str) :=
  [("BDRMS".toList, "BEDROOMS".toList),
   ("BATH(S)".toList, "BATHS".toList),
   ("QUALITY".toList, "QUALITY OF CONSTRUCTION".toList),
   ("QUALITY OF CONST".toList, "QUALITY OF CONSTRUCTION".toList),
   ("PROPERTY ADDRESS".toList, "PROPERTY ADDRESS".toList),
   ("ADDRESS".toList, "ADDRESS".toList),
   ("LOT SIZE".toList, "SITE".toList),
   ("AREA".toList, "SITE".toList)]

/-- `FIELD_ONLY_SET` from the source. -/
def FIELD_ONLY_SET : List Str :=
  ["OPINION OF SITE VALUE".toList, "TOTAL ESTIMATE OF COST-NEW".toList,
   "DEPRECIATION".toList, "R.E. TAX YEAR".toList,
   "HOA FREQUENCY".toList, "POOL".toList]

/-- `SALES_HISTORY_COMP_FIELDS` from the source. -/
def SALES_HISTORY_COMP_FIELDS : List Str :=
  ["DATE OF PRIOR SALE/TRANSFER".toList, "PRICE OF PRIOR SALE/TRANSFER".toList,
   "DATA SOURCE(S)".toList, "EFFECTIVE DATE OF DATA SOURCE(S)".toList]

/-- Association-list lookup (Python `dict.get`). -/
def alookup {α : Type} (l : List (Str × α)) (k : Str) : Option α :=
  (l.find? (fun p => p.1 = k)).map (fun p => p.2)

/-- The synonym step of `canonical_field`, on normalized input. -/
def fieldSyn (n : Str) : Str :=
  match alookup FIELD_SYNONYMS n with
  | some v => v
  | none => n

/-- `canonical_field` from the source: normalize, then the synonym table,
else pass through. -/
def canonical_field (s : Str) : Str :=
  fieldSyn (norm s)

/-- If `p` is a prefix of `s`, return the remainder. -/
def stripPre : Str → Str → Option Str
  | [], s => some s
  | _ :: _, [] => none
  | a :: p, b :: s => if a = b then stripPre p s else none

/-- Boolean: `p` is a prefix of `s` (Python `str.startswith`). -/
def isPre (p s : Str) : Bool :=
  (stripPre p s).isSome

/-- Boolean substring test (Python `in` on strings). -/
def hasSub (p : Str) : Str → Bool
  | [] => p.isEmpty
  | c :: t => isPre p (c :: t) || hasSub p t

/-- After an already-consumed pattern prefix: regex `\s*(\d+)` — skip
whitespace greedily, then require at least one digit; the group is the
maximal digit run. -/
def afterWsDigits (r : Str) : Option Str :=
  let ds := (r.dropWhile isPyWs).takeWhile isDig
  if ds = [] then none else some ds

/-- `re.match(r"COMPARA?BE\s*(\d+)", s)`: anchored at the start, returns
the digit group on success. -/
def compMatch (s : Str) : Option Str :=
  match stripPre "COMPARABE".toList s with
  | some r => afterWsDigits r
  | none =>
    match stripPre "COMPARBE".toList s with
    | some r => afterWsDigits r
    | none => none

/-- The literal `"COMPARABLE SALE #"`. -/
def headerCS : Str := "COMPARABLE SALE #".toList

/-- One anchored attempt of the pattern `COMPARABLE SALE #\s*(\d+)`:
on success returns the digit group and the remainder after it. -/
def matchSale (s : Str) : Option (Str × Str) :=
  match stripPre headerCS s with
  | none => none
  | some r =>
    let r' := r.dropWhile isPyWs
    let ds := r'.takeWhile isDig
    if ds = [] then none else some (ds, r'.dropWhile isDig)

/-- `re.sub(r"COMPARABLE SALE #\s*(\d+)", r"COMPARABLE SALE #\1", s)`,
scanning left to right, fueled by the length of the string (each step
consumes at least one character). -/
def subCompA : Nat → Str → Str
  | 0, s => s
  | _ + 1, [] => []
  | n + 1, c :: cs =>
    match matchSale (c :: cs) with
    | some (ds, rest) => headerCS ++ ds ++ subCompA n rest
    | none => c :: subCompA n cs

/-- The substitution with enough fuel. -/
def subComp (s : Str) : Str := subCompA s.length s

/-- The prioritized rule cascade of `canonical_section`, on normalized
input. -/
def sectionCascade (s : Str) : Str :=
  match compMatch s with
  | some n => headerCS ++ n
  | none =>
    if isPre headerCS s then subComp s
    else if hasSub "ONE-UNIT HOUSING TRENDS".toList s then "ONE_UNIT_HOUSING_TRENDS".toList
    else if hasSub "ONE-UNIT HOUSING".toList s then "ONE_UNIT_HOUSING".toList
    else if hasSub "RECONCILIATION".toList s then "RECONCILIATION".toList
    else if hasSub "COST APPROACH".toList s then "COST_APPROACH".toList
    else if hasSub "SALES".toList s && hasSub "HISTORY".toList s then "SALES_HISTORY".toList
    else if s = "SUBJECT".toList then "SUBJECT".toList
    else s

/-- `canonical_section` from the source: normalize, then the prioritized
rule cascade. -/
def canonical_section (s0 : Str) : Str :=
  sectionCascade (norm s0)

mutual
/-- A JSON-like extraction value: a leaf (already carrying its Python
`str()` rendering) or a nested object. -/
inductive JVal : Type
  | str : Str → JVal
  | obj : JObj → JVal
inductive JObj : Type
  | nil : JObj
  | cons : Str → JVal → JObj → JObj
end

/-- The flat index: an association list with Python-dict semantics. -/
abbrev Flat := List (Str × Str)

/-- Python `flat[k] = v`: update in place if present, else append. -/
def dins (k v : Str) : Flat → Flat
  | [] => [(k, v)]
  | (k', v') :: t => if k' = k then (k, v) :: t else (k', v') :: dins k v t

/-- `flat.get(k, "")`. -/
def fget (flat : Flat) (k : Str) : Str :=
  (alookup flat k).getD []

/-- The section resolution of `flatten_json`: scan the candidates (already
reversed, deepest first) and take the first whose `canonical_section` is
non-empty. -/
def resolveSection : List Str → Str
  | [] => []
  | p :: rest =>
    let sec := canonical_section p
    if sec ≠ [] then sec else resolveSection rest

/-- The writes a single leaf performs, in order: the composite
`"{section}.{field}"` entry when both resolve non-empty, then the bare
field entry when the canonical field is in `FIELD_ONLY_SET`. -/
def leafWrites (path : List Str) (v : Str) : List (Str × Str) :=
  match path.getLast? with
  | none => []
  | some rawField =>
    let fieldC := canonical_field rawField
    let sectionC := resolveSection path.dropLast.reverse
    (if sectionC ≠ [] && fieldC ≠ [] then [(sectionC ++ '.' :: fieldC, v)] else [])
      ++ (if fieldC ∈ FIELD_ONLY_SET then [(fieldC, v)] else [])

mutual
/-- The depth-first walk of `flatten_json`, threading the flat dict.
A leaf at the empty path is unreachable from an object document (the
Python code would raise there). -/
def walkV : List Str → JVal → Flat → Flat
  | path, .str s, flat => (leafWrites path s).foldl (fun f p => dins p.1 p.2 f) flat
  | path, .obj o, flat => walkO path o flat
def walkO : List Str → JObj → Flat → Flat
  | _, .nil, flat => flat
  | path, .cons k v rest, flat => walkO path rest (walkV (path ++ [k]) v flat)
end

/-- `flatten_json` from the source, on a top-level object. -/
def flatten_json (merged : JObj) : Flat :=
  walkO [] merged []

mutual
/-- The ordered sequence of dict assignments the walk performs. -/
def writesV : List Str → JVal → List (Str × Str)
  | path, .str s => leafWrites path s
  | path, .obj o => writesO path o
def writesO : List Str → JObj → List (Str × Str)
  | _, .nil => []
  | path, .cons k v rest => writesV (path ++ [k]) v ++ writesO path rest
end

mutual
/-- The leaves of a value, in walk order, as (path, value) pairs. -/
def leavesV : List Str → JVal → List (List Str × Str)
  | path, .str s => [(path, s)]
  | path, .obj o => leavesO path o
def leavesO : List Str → JObj → List (List Str × Str)
  | _, .nil => []
  | path, .cons k v rest => leavesV (path ++ [k]) v ++ leavesO path rest
end

/-- `pick_value` from the source: the priority-ordered lookup policy. -/
def pick_value (sect field : Str) (flat : Flat) : Str :=
  if field ∈ FIELD_ONLY_SET then fget flat field
  else if field ∈ SALES_HISTORY_COMP_FIELDS && isPre headerCS sect then
    fget flat (sect ++ '.' :: field)
  else if isPre headerCS sect then fget flat (sect ++ '.' :: field)
  else if sect = "SUBJECT".toList then fget flat ("SUBJECT".toList ++ '.' :: field)
  else if sect = "SALES_HISTORY_SUBJECT".toList then
    fget flat ("SALES_HISTORY.Subject.".toList ++ field)
  else fget flat (sect ++ '.' :: field)

/-- The spreadsheet header rows: per column (1-based), the section-row
cell and the field-row cell; `none` is an empty cell. -/
structure Grid : Type where
  numCols : Nat
  secCell : Nat → Option Str
  fldCell : Nat → Option Str

/-- The canonical section of a column's section-row cell (`None` cells
normalize to the empty string, exactly as Python's falsy check). -/
def canonSec (g : Grid) (col : Nat) : Str :=
  canonical_section ((g.secCell col).getD [])

/-- The canonical field of a column's field-row cell. -/
def canonFld (g : Grid) (col : Nat) : Str :=
  canonical_field ((g.fldCell col).getD [])

/-- The `raw` list of `detect_sections`: left-to-right scan carrying the
last non-empty canonical section. -/
def rawsFrom (g : Grid) (last : Str) : List Nat → List Str
  | [] => []
  | c :: cs =>
    (if canonSec g c ≠ [] then canonSec g c else last) ::
      rawsFrom g (if canonSec g c ≠ [] then canonSec g c else last) cs

/-- The propagated section list, one entry per column `1..numCols`. -/
def raws (g : Grid) : List Str :=
  rawsFrom g [] (List.range' 1 g.numCols)

/-- `next((i for i,x in enumerate(raw,1) if x=="COMPARABLE SALE #1"), None)`. -/
def firstAt (target : Str) : Nat → List Str → Option Nat
  | _, [] => none
  | i, x :: xs => if x = target then some i else firstAt target (i + 1) xs

/-- The literal `"COMPARABLE SALE #1"`. -/
def compSale1 : Str := "COMPARABLE SALE #1".toList

/-- `comp1_start` of `detect_sections`. -/
def comp1Start (g : Grid) : Option Nat :=
  firstAt compSale1 1 (raws g)

/-- The final section of one column: the propagated entry, with the
positional and field-identity fallbacks when it is empty. -/
def finalAt (g : Grid) (col : Nat) : Str :=
  let sec := (raws g).getD (col - 1) []
  if sec = [] then
    match comp1Start g with
    | some c1 =>
      if col < c1 then "SUBJECT".toList
      else if canonFld g col ∈ SALES_HISTORY_COMP_FIELDS then "SALES_HISTORY_SUBJECT".toList
      else []
    | none =>
      if canonFld g col ∈ SALES_HISTORY_COMP_FIELDS then "SALES_HISTORY_SUBJECT".toList
      else []
  else sec

/-- `detect_sections` from the source: one resolved section per column
`1..numCols`. -/
def detect_sections (g : Grid) : List Str :=
  (List.range' 1 g.numCols).map (finalAt g)

/-- `dict.setdefault(k, c)`: keep the existing binding, else append. -/
def setdefault (k : Str × Str) (c : Nat) : List ((Str × Str) × Nat) → List ((Str × Str) × Nat)
  | [] => [(k, c)]
  | (k', c') :: t => if k' = k then (k', c') :: t else (k', c') :: setdefault k c t

/-- Lookup in the column map. -/
def cmlookup (m : List ((Str × Str) × Nat)) (k : Str × Str) : Option Nat :=
  (m.find? (fun p => p.1 = k)).map (fun p => p.2)

/-- The `(section, field)` identity of a column, as the colmap loop reads
it: the resolved section from the detector and the canonical field. -/
def colKey (g : Grid) (c : Nat) : Str × Str :=
  ((detect_sections g).getD (c - 1) [], canonFld g c)

/-- The guard of the colmap loop: both components non-empty. -/
def colOK (g : Grid) (c : Nat) : Bool :=
  ((detect_sections g).getD (c - 1) [] ≠ []) && (canonFld g c ≠ [])

/-- One iteration of the colmap loop. -/
def colmapStep (g : Grid) (m : List ((Str × Str) × Nat)) (col : Nat) :
    List ((Str × Str) × Nat) :=
  if colOK g col then setdefault (colKey g col) col m else m

/-- The `colmap` loop from the source: first column per (section, field). -/
def colmapList (g : Grid) : List ((Str × Str) × Nat) :=
  (List.range' 1 g.numCols).foldl (colmapStep g) []

/-- A blank target cell: `None`, `""` or `" "`. -/
def isBlankCell (v : Option Str) : Bool :=
  v = none || v = some [] || v = some [' ']

/-- The writer loop from the source: for each mapped `(section, field) →
column`, skip non-blank cells, resolve the value, write it if non-empty;
returns the updated row and the fill count. -/
def writerLoop (flat : Flat) : List ((Str × Str) × Nat) → (Nat → Option Str) → Nat →
    (Nat → Option Str) × Nat
  | [], row, filled => (row, filled)
  | ((sec, fld), col) :: rest, row, filled =>
    if isBlankCell (row col) then
      let val := pick_value sec fld flat
      if val ≠ [] then
        writerLoop flat rest (fun c => if c = col then some val else row c) (filled + 1)
      else writerLoop flat rest row filled
    else writerLoop flat rest row filled



-- ===== Derived definitions used by the specifications =====

/-- One dict-assignment step. -/
def dstep (f : Flat) (p : Str × Str) : Flat := dins p.1 p.2 f

/-- First-of-two alternatives on options. -/
def oor {A : Type} (a b : Option A) : Option A :=
  match a with
  | some v => some v
  | none => b

/-- The value of the last assignment to `k` in a write sequence (later
writes take precedence). -/
def lastVal : List (Str × Str) → Str → Option Str
  | [], _ => none
  | (a, b) :: t, k => oor (lastVal t k) (if a = k then some b else none)

/-- Keys of the flat dict. -/
def keysOf (f : Flat) : List Str := f.map (fun p => p.1)

/-- The writes of `flatten_json` itself. -/
def flatWrites (merged : JObj) : List (Str × Str) := writesO [] merged

/-- The document `{"SUBJECT": {"Bdrms": "3", "Bedrooms": "4"}}`: two
distinct leaves whose composite keys coincide after canonicalization. -/
def dupDoc : JObj :=
  .cons "SUBJECT".toList
    (.obj (.cons "Bdrms".toList (.str "3".toList)
      (.cons "Bedrooms".toList (.str "4".toList) .nil))) .nil

/-- The error-shaped fallback document
`{"error": <e>, "raw_output": <r>}`. -/
def errDoc (e r : Str) : JObj :=
  .cons "error".toList (.str e) (.cons "raw_output".toList (.str r) .nil)

/-- A column bears identity `k` when the colmap guard holds and its
identity equals `k`. -/
def bears (g : Grid) (k : Str × Str) (c : Nat) : Bool :=
  colOK g c && decide (colKey g c = k)

/-- A concrete one-cell row for exercising the writer. -/
def wRow : Nat → Option Str :=
  fun c => if c = 1 then some "X".toList else none

/-- A concrete one-entry column map for exercising the writer. -/
def wEntries : List ((Str × Str) × Nat) :=
  [(("S".toList, "F".toList), 1)]

/-- A concrete two-column grid with identical column identities. -/
def wGrid : Grid :=
  { numCols := 2
    secCell := fun _ => some "Subject".toList
    fldCell := fun _ => some "State".toList }

/-- The document `{"RECONCILIATION": {"Depreciation": "500"}}`. -/
def reconDoc : JObj :=
  .cons "RECONCILIATION".toList
    (.obj (.cons "Depreciation".toList (.str "500".toList) .nil)) .nil

/-- Written from the claim: the section a column inherits — its own
section-row cell if it canonicalizes non-empty, else the nearest
non-blank canonical section among the columns to its left (scanning
`col, col-1, ..., 1`). -/
def specRaw (g : Grid) : Nat → Str
  | 0 => []
  | c + 1 => if canonSec g (c + 1) ≠ [] then canonSec g (c + 1) else specRaw g c

/-- Written from the claim: the first column whose resolved (propagated)
section is `"COMPARABLE SALE #1"`. -/
def claimComp1 (g : Grid) : Option Nat :=
  (List.range' 1 g.numCols).find? (fun c => specRaw g c = compSale1)

/-- Written from the claim (C3), word for word: a column whose
section-row cell canonicalizes non-empty gets that section; a column
whose cell is empty inherits the nearest non-blank section to its left;
a column with no labeled section anywhere to its left is assigned
`SUBJECT` when a column resolving to `"COMPARABLE SALE #1"` exists and
this column precedes it, else `SALES_HISTORY_SUBJECT` when its
canonicalized field label is in the sales-history comparable-field set,
else the empty section. -/
def claimSection (g : Grid) (col : Nat) : Str :=
  if canonSec g col ≠ [] then canonSec g col
  else if specRaw g (col - 1) ≠ [] then specRaw g (col - 1)
  else
    match claimComp1 g with
    | some c1 =>
      if col < c1 then "SUBJECT".toList
      else if canonFld g col ∈ SALES_HISTORY_COMP_FIELDS then "SALES_HISTORY_SUBJECT".toList
      else []
    | none =>
      if canonFld g col ∈ SALES_HISTORY_COMP_FIELDS then "SALES_HISTORY_SUBJECT".toList
      else []

/-- The fold the propagation scan performs on the carried section. -/
def carriedG (g : Grid) (last : Str) (xs : List Nat) : Str :=
  xs.foldl (fun l c => if canonSec g c ≠ [] then canonSec g c else l) last

/-- A well-formed word list: non-empty, whitespace-free words. -/
def wordsGood (L : List Str) : Prop :=
  ∀ w ∈ L, w ≠ [] ∧ ∀ ch ∈ w, isPyWs ch = false

/-- The uppercased word list of the normalization pipeline. -/
def normWords (s : Str) : List Str :=
  (wordsAux [] (replHS (pstrip (replaceNl s)))).map (List.map toUp)

/-- Character is not a dot (used to split composite keys). -/
def notDot (ch : Char) : Bool := ch ≠ '.'

/-- A key `flatten_json` can produce: a composite key built from a
canonical section and a canonical field, or a bare field-only key. -/
def goodKey (k : Str) : Prop :=
  (∃ s0 f0 : Str, canonical_section s0 ≠ [] ∧
    k = canonical_section s0 ++ '.' :: canonical_field f0) ∨
  k ∈ FIELD_ONLY_SET

/-- The document with two `Depreciation` leaves in different sections. -/
def c1doc : JObj :=
  .cons "RECONCILIATION".toList
    (.obj (.cons "Depreciation".toList (.str "500".toList) .nil))
    (.cons "COST_APPROACH".toList
      (.obj (.cons "Depreciation".toList (.str "600".toList) .nil)) .nil)

/-- The document `{"SUBJECT": {"State": "WI"}}`. -/
def subjDoc : JObj :=
  .cons "SUBJECT".toList (.obj (.cons "State".toList (.str "WI".toList) .nil)) .nil

/-- The document `{"SUBJECT": {"Pool": "YES"}}`. -/
def poolDoc : JObj :=
  .cons "SUBJECT".toList (.obj (.cons "Pool".toList (.str "YES".toList) .nil)) .nil

-- ===== Theorems =====

theorem oor_assoc {A : Type} (a b c : Option A) : oor (oor a b) c = oor a (oor b c) := by
  cases a <;> simp [oor]

theorem alookup_cons (a : Str) (b : Str) (t : Flat) (k : Str) :
    alookup ((a, b) :: t) k = if a = k then some b else alookup t k := by
  by_cases h : a = k <;> simp [alookup, List.find?, h]

theorem alookup_dins (k v k' : Str) (f : Flat) :
    alookup (dins k v f) k' = if k = k' then some v else alookup f k' := by
  induction f with
  | nil =>
    show alookup [(k, v)] k' = _
    rw [alookup_cons]
  | cons p t ih =>
    obtain ⟨a, b⟩ := p
    by_cases hak : a = k
    · subst hak
      have hd : dins a v ((a, b) :: t) = (a, v) :: t := by simp [dins]
      rw [hd, alookup_cons, alookup_cons]
      by_cases h : a = k' <;> simp [h]
    · simp only [dins, if_neg hak]
      rw [alookup_cons, ih, alookup_cons]
      by_cases h : a = k'
      · subst h
        have hka : ¬k = a := fun hh => hak hh.symm
        simp [hka]
      · by_cases h2 : k = k' <;> simp [h, h2]

theorem alookup_foldl_dins (ws : List (Str × Str)) (f : Flat) (k : Str) :
    alookup (ws.foldl dstep f) k = oor (lastVal ws k) (alookup f k) := by
  induction ws generalizing f with
  | nil => simp [lastVal, oor]
  | cons w t ih =>
    obtain ⟨a, b⟩ := w
    rw [List.foldl_cons, ih, lastVal, oor_assoc]
    have : alookup (dstep f (a, b)) k = oor (if a = k then some b else none) (alookup f k) := by
      show alookup (dins a b f) k = _
      rw [alookup_dins]
      by_cases h : a = k <;> simp [h, oor]
    rw [this]

mutual
theorem walkV_writes : ∀ (path : List Str) (v : JVal) (flat : Flat),
    walkV path v flat = (writesV path v).foldl dstep flat
  | path, .str s, flat => by
    show (leafWrites path s).foldl (fun f p => dins p.1 p.2 f) flat = _
    rfl
  | path, .obj o, flat => by
    simpa [walkV, writesV] using walkO_writes path o flat
theorem walkO_writes : ∀ (path : List Str) (o : JObj) (flat : Flat),
    walkO path o flat = (writesO path o).foldl dstep flat
  | _, .nil, flat => by simp [walkO, writesO]
  | path, .cons k v rest, flat => by
    rw [walkO, writesO, List.foldl_append, walkO_writes path rest, walkV_writes (path ++ [k]) v]
end


theorem flatten_json_eq_foldl (merged : JObj) :
    flatten_json merged = (flatWrites merged).foldl dstep [] := by
  simpa [flatten_json, flatWrites] using walkO_writes [] merged []

/-- The flat dict built by `flatten_json` holds, at every key, the value of
the LAST dict assignment the depth-first walk performed for that key. -/
theorem flatten_lookup_eq_lastVal (merged : JObj) (k : Str) :
    alookup (flatten_json merged) k = lastVal (flatWrites merged) k := by
  rw [flatten_json_eq_foldl, alookup_foldl_dins]
  cases h : lastVal (flatWrites merged) k <;> simp [oor, alookup]

theorem pick_value_empty_flat (sect fld : Str) : pick_value sect fld [] = [] := by
  unfold pick_value fget alookup
  split_ifs <;> simp

theorem writerLoop_empty_flat :
    ∀ (entries : List ((Str × Str) × Nat)) (row : Nat → Option Str) (filled : Nat),
    writerLoop [] entries row filled = (row, filled) := by
  intro entries
  induction entries with
  | nil => intro row filled; rfl
  | cons e rest ih =>
    intro row filled
    obtain ⟨⟨s, f⟩, col⟩ := e
    rw [writerLoop]
    rw [pick_value_empty_flat]
    simp only [ne_eq, not_true_eq_false, if_false]
    split <;> exact ih row filled

/-- C2 counterexample: in `{"SUBJECT": {"Bdrms": "3", "Bedrooms": "4"}}`
two distinct leaves flatten to the key `"SUBJECT.BEDROOMS"`; the walk
writes `"3"` first and `"4"` second, and the stored value is `"4"` — the
LAST occurrence, not the first as the claim states. -/
theorem C2_cex_first_occurrence_loses :
    flatWrites dupDoc =
      [("SUBJECT.BEDROOMS".toList, "3".toList), ("SUBJECT.BEDROOMS".toList, "4".toList)] ∧
    alookup (flatten_json dupDoc) "SUBJECT.BEDROOMS".toList = some "4".toList ∧
    ("4".toList : Str) ≠ "3".toList := by
  refine ⟨by decide, by decide, by decide⟩

/-- C2 (amended): when two distinct leaves of the extraction document
flatten to the same FlatIndex key, the value stored under that key is the
one from the LAST assignment the depth-first walk performs for that key
(Python dict assignment is last-write-wins, not first-occurrence-wins). -/
theorem C2_flatten_last_occurrence_wins (merged : JObj) (k : Str) :
    alookup (flatten_json merged) k = lastVal (flatWrites merged) k :=
  flatten_lookup_eq_lastVal merged k

/-- C9: `canonical_section` maps the fuzzy "COMPARABLE" misspelling with
digits to `"COMPARABLE SALE #{n}"` and re-emits already-canonical
comparable forms normalized. -/
theorem C9_canonical_section_comparable_forms :
    canonical_section "Comparable Sale #3".toList = "COMPARABLE SALE #3".toList ∧
    canonical_section "comparbe 7".toList = "COMPARABLE SALE #7".toList := by
  refine ⟨by decide, by decide⟩

/-- C8: flattening the error-shaped fallback document yields an empty
FlatIndex, every `(section, field)` resolves to the empty value from it,
and the writer loop run against it writes nothing and reports fill
count 0 — never a hard failure. -/
theorem C8_error_doc_contributes_nothing (e r : Str) :
    flatten_json (errDoc e r) = [] ∧
    (∀ sect fld : Str, pick_value sect fld (flatten_json (errDoc e r)) = []) ∧
    (∀ (entries : List ((Str × Str) × Nat)) (row : Nat → Option Str) (c : Nat),
      (writerLoop (flatten_json (errDoc e r)) entries row 0).2 = 0 ∧
      (writerLoop (flatten_json (errDoc e r)) entries row 0).1 c = row c) := by
  have hflat : flatten_json (errDoc e r) = [] := rfl
  refine ⟨hflat, ?_, ?_⟩
  · intro sect fld
    rw [hflat]
    exact pick_value_empty_flat sect fld
  · intro entries row c
    rw [hflat, writerLoop_empty_flat]
    exact ⟨rfl, rfl⟩

theorem writerLoop_preserves_nonblank (flat : Flat) :
    ∀ (entries : List ((Str × Str) × Nat)) (row : Nat → Option Str) (filled : Nat) (c : Nat),
    isBlankCell (row c) = false → (writerLoop flat entries row filled).1 c = row c := by
  intro entries
  induction entries with
  | nil => intro row filled c _; rfl
  | cons e rest ih =>
    intro row filled c hc
    obtain ⟨⟨s, f⟩, col⟩ := e
    rw [writerLoop]
    by_cases hb : isBlankCell (row col) = true
    · rw [if_pos hb]
      have hcc : c ≠ col := by
        intro h
        rw [h] at hc
        rw [hc] at hb
        exact Bool.false_ne_true hb
      by_cases hv : pick_value s f flat ≠ []
      · rw [if_pos hv]
        have h2 : isBlankCell (if c = col then some (pick_value s f flat) else row c) = false := by
          rw [if_neg hcc]; exact hc
        rw [ih (fun x => if x = col then some (pick_value s f flat) else row x) (filled + 1) c h2]
        simp [hcc]
      · rw [if_neg hv]
        exact ih _ _ c hc
    · rw [if_neg hb]
      exact ih _ _ c hc

theorem writerLoop_allfilled (flat : Flat) :
    ∀ (entries : List ((Str × Str) × Nat)) (row : Nat → Option Str) (filled : Nat),
    (∀ p ∈ entries, isBlankCell (row p.2) = false) →
    writerLoop flat entries row filled = (row, filled) := by
  intro entries
  induction entries with
  | nil => intro row filled _; rfl
  | cons e rest ih =>
    intro row filled hall
    obtain ⟨⟨s, f⟩, col⟩ := e
    have hcol : isBlankCell (row col) = false := hall ((s, f), col) (List.mem_cons_self _ _)
    rw [writerLoop, if_neg (by rw [hcol]; exact Bool.false_ne_true)]
    exact ih row filled (fun p hp => hall p (List.mem_cons_of_mem _ hp))

/-- C4: the writer never changes a cell of the target row whose current
value is other than `None`, `""` or `" "`; and running the fill loop
against a row whose mapped cells all hold non-blank values writes nothing
and returns fill count 0. -/
theorem C4_writer_frame (flat : Flat) (entries : List ((Str × Str) × Nat))
    (row : Nat → Option Str) :
    (∀ c : Nat, isBlankCell (row c) = false →
      ∀ filled : Nat, (writerLoop flat entries row filled).1 c = row c) ∧
    ((∀ p ∈ entries, isBlankCell (row p.2) = false) →
      writerLoop flat entries row 0 = (row, 0)) :=
  ⟨fun c hc filled => writerLoop_preserves_nonblank flat entries row filled c hc,
   fun hall => writerLoop_allfilled flat entries row 0 hall⟩

/-- C4 witness: a concrete row whose single mapped cell holds `"X"`; the
loop leaves the cell unchanged and fills 0 cells. -/
theorem C4_writer_frame_witness :
    isBlankCell (wRow 1) = false ∧
    (writerLoop [] wEntries wRow 0).1 1 = wRow 1 ∧
    writerLoop [] wEntries wRow 0 = (wRow, 0) := by
  refine ⟨by decide, (C4_writer_frame [] wEntries wRow).1 1 (by decide) 0,
    (C4_writer_frame [] wEntries wRow).2 ?_⟩
  intro p hp
  have : p = (("S".toList, "F".toList), 1) := List.mem_singleton.mp hp
  rw [this]
  decide

theorem oor_none {A : Type} (a : Option A) : oor a none = a := by
  cases a <;> rfl

theorem cmlookup_cons (a : Str × Str) (b : Nat) (t : List ((Str × Str) × Nat)) (k : Str × Str) :
    cmlookup ((a, b) :: t) k = if a = k then some b else cmlookup t k := by
  by_cases h : a = k <;> simp [cmlookup, List.find?, h]

theorem cmlookup_setdefault_same (k : Str × Str) (c : Nat) (m : List ((Str × Str) × Nat)) :
    cmlookup (setdefault k c m) k = oor (cmlookup m k) (some c) := by
  induction m with
  | nil =>
    show cmlookup [(k, c)] k = _
    rw [cmlookup_cons, if_pos rfl]
    rfl
  | cons p t ih =>
    obtain ⟨a, b⟩ := p
    by_cases hak : a = k
    · subst hak
      have hd : setdefault a c ((a, b) :: t) = (a, b) :: t := by simp [setdefault]
      rw [hd, cmlookup_cons, if_pos rfl]
      rfl
    · have hd : setdefault k c ((a, b) :: t) = (a, b) :: setdefault k c t := by
        simp [setdefault, hak]
      rw [hd, cmlookup_cons, if_neg hak, cmlookup_cons, if_neg hak, ih]

theorem cmlookup_setdefault_other (k : Str × Str) (c : Nat) (m : List ((Str × Str) × Nat))
    (k' : Str × Str) (h : k' ≠ k) :
    cmlookup (setdefault k c m) k' = cmlookup m k' := by
  induction m with
  | nil =>
    show cmlookup [(k, c)] k' = _
    rw [cmlookup_cons, if_neg (fun hh => h hh.symm)]
  | cons p t ih =>
    obtain ⟨a, b⟩ := p
    by_cases hak : a = k
    · subst hak
      have hd : setdefault a c ((a, b) :: t) = (a, b) :: t := by simp [setdefault]
      rw [hd]
    · have hd : setdefault k c ((a, b) :: t) = (a, b) :: setdefault k c t := by
        simp [setdefault, hak]
      rw [hd, cmlookup_cons, cmlookup_cons, ih]

theorem cmlookup_foldl (g : Grid) :
    ∀ (cols : List Nat) (m : List ((Str × Str) × Nat)) (k : Str × Str),
    cmlookup (cols.foldl (colmapStep g) m) k = oor (cmlookup m k) (cols.find? (bears g k)) := by
  intro cols
  induction cols with
  | nil => intro m k; rw [List.foldl_nil, List.find?_nil, oor_none]
  | cons col rest ih =>
    intro m k
    rw [List.foldl_cons, ih]
    by_cases hb : bears g k col = true
    · have hok : colOK g col = true := by
        have := hb
        unfold bears at this
        exact (Bool.and_eq_true _ _).mp this |>.1
      have hkey : colKey g col = k := by
        have := hb
        unfold bears at this
        exact of_decide_eq_true ((Bool.and_eq_true _ _).mp this |>.2)
      have hstep : colmapStep g m col = setdefault k col m := by
        rw [colmapStep, if_pos hok, hkey]
      rw [hstep, cmlookup_setdefault_same, List.find?_cons_of_pos _ hb, oor_assoc]
      rfl
    · rw [List.find?_cons_of_neg _ hb]
      have hb' : ¬(colOK g col = true ∧ colKey g col = k) := by
        intro ⟨h1, h2⟩
        exact hb (by unfold bears; rw [h1, h2]; simp)
      by_cases hok : colOK g col = true
      · have hkne : colKey g col ≠ k := fun hh => hb' ⟨hok, hh⟩
        rw [show colmapStep g m col = setdefault (colKey g col) col m from by
              rw [colmapStep, if_pos hok],
            cmlookup_setdefault_other _ _ _ _ (fun hh => hkne hh.symm)]
      · rw [show colmapStep g m col = m from by
              rw [colmapStep, if_neg hok]]

theorem find?_range'_min (p : Nat → Bool) :
    ∀ (n a c : Nat), (List.range' a n).find? p = some c →
      p c = true ∧ a ≤ c ∧ c < a + n ∧
      ∀ c', a ≤ c' → c' < a + n → p c' = true → c ≤ c' := by
  intro n
  induction n with
  | zero => intro a c h; simp [List.range'] at h
  | succ n ih =>
    intro a c h
    rw [List.range'_succ] at h
    by_cases hpa : p a = true
    · rw [List.find?_cons_of_pos _ hpa] at h
      injection h with h
      subst h
      exact ⟨hpa, le_refl _, by omega, fun c' h1 _ _ => h1⟩
    · rw [List.find?_cons_of_neg _ hpa] at h
      obtain ⟨h1, h2, h3, h4⟩ := ih (a + 1) c h
      refine ⟨h1, by omega, by omega, ?_⟩
      intro c' hc1 hc2 hpc
      by_cases hca : c' = a
      · subst hca; exact absurd hpc hpa
      · exact h4 c' (by omega) (by omega) hpc

/-- C5: the ColumnMap maps each (section, field) identity to the smallest
column index bearing that identity; later duplicate columns are never
recorded. -/
theorem C5_colmap_first_column (g : Grid) (k : Str × Str) (c : Nat)
    (h : cmlookup (colmapList g) k = some c) :
    bears g k c = true ∧ 1 ≤ c ∧ c ≤ g.numCols ∧
    ∀ c' : Nat, 1 ≤ c' → c' ≤ g.numCols → bears g k c' = true → c ≤ c' := by
  rw [colmapList, cmlookup_foldl] at h
  have h' : (List.range' 1 g.numCols).find? (bears g k) = some c := by
    have hnil : cmlookup ([] : List ((Str × Str) × Nat)) k = none := rfl
    rw [hnil] at h
    exact h
  obtain ⟨h1, h2, h3, h4⟩ := find?_range'_min (bears g k) g.numCols 1 c h'
  exact ⟨h1, h2, by omega, fun c' hc1 hc2 hpc => h4 c' hc1 (by omega) hpc⟩

/-- C5 witness: in a two-column grid whose columns share the identity
(SUBJECT, STATE), the colmap records column 1, which bears the identity
and is minimal among the bearers. -/
theorem C5_colmap_first_column_witness :
    cmlookup (colmapList wGrid) ("SUBJECT".toList, "STATE".toList) = some 1 ∧
    bears wGrid ("SUBJECT".toList, "STATE".toList) 1 = true ∧
    (∀ c' : Nat, 1 ≤ c' → c' ≤ wGrid.numCols →
      bears wGrid ("SUBJECT".toList, "STATE".toList) c' = true → 1 ≤ c') := by
  have h : cmlookup (colmapList wGrid) ("SUBJECT".toList, "STATE".toList) = some 1 := by decide
  have hc := C5_colmap_first_column wGrid ("SUBJECT".toList, "STATE".toList) 1 h
  exact ⟨h, hc.1, hc.2.2.2⟩

theorem dins_keys_mem (k v : Str) (f : Flat) (k' : Str) (h : k' ∈ keysOf f) :
    k' ∈ keysOf (dins k v f) := by
  induction f with
  | nil => simp [keysOf] at h
  | cons p t ih =>
    obtain ⟨a, b⟩ := p
    simp only [keysOf, List.map_cons, List.mem_cons] at h
    by_cases hak : a = k
    · subst hak
      have hd : dins a v ((a, b) :: t) = (a, v) :: t := by simp [dins]
      rw [hd]
      simp only [keysOf, List.map_cons, List.mem_cons]
      exact h
    · have hd : dins k v ((a, b) :: t) = (a, b) :: dins k v t := by simp [dins, hak]
      rw [hd]
      simp only [keysOf, List.map_cons, List.mem_cons]
      rcases h with h | h
      · exact Or.inl h
      · exact Or.inr (ih h)

theorem dins_key_self (k v : Str) (f : Flat) : k ∈ keysOf (dins k v f) := by
  induction f with
  | nil => simp [dins, keysOf]
  | cons p t ih =>
    obtain ⟨a, b⟩ := p
    by_cases hak : a = k
    · subst hak
      have hd : dins a v ((a, b) :: t) = (a, v) :: t := by simp [dins]
      rw [hd]
      simp [keysOf]
    · have hd : dins k v ((a, b) :: t) = (a, b) :: dins k v t := by simp [dins, hak]
      rw [hd]
      simp only [keysOf, List.map_cons, List.mem_cons]
      exact Or.inr ih

theorem keysOf_foldl_mono (ws : List (Str × Str)) (f : Flat) (k : Str) (h : k ∈ keysOf f) :
    k ∈ keysOf (ws.foldl dstep f) := by
  induction ws generalizing f with
  | nil => exact h
  | cons w t ih =>
    rw [List.foldl_cons]
    exact ih _ (dins_keys_mem w.1 w.2 f k h)

theorem keysOf_foldl_of_write (ws : List (Str × Str)) (f : Flat) (e : Str × Str)
    (h : e ∈ ws) : e.1 ∈ keysOf (ws.foldl dstep f) := by
  induction ws generalizing f with
  | nil => simp at h
  | cons w t ih =>
    rw [List.foldl_cons]
    rcases List.mem_cons.mp h with h | h
    · subst h
      exact keysOf_foldl_mono t (dstep f e) e.1 (dins_key_self e.1 e.2 f)
    · exact ih _ h

mutual
theorem leaf_writes_in_writesV :
    ∀ (path : List Str) (w : JVal) (p : List Str) (v : Str),
    (p, v) ∈ leavesV path w → ∀ e ∈ leafWrites p v, e ∈ writesV path w
  | path, .str s, p, v => by
    intro hm e he
    simp only [leavesV, List.mem_singleton] at hm
    obtain ⟨h1, h2⟩ := Prod.mk.injEq .. ▸ hm
    rw [writesV]
    subst h1; subst h2
    exact he
  | path, .obj o, p, v => by
    intro hm e he
    rw [writesV]
    rw [leavesV] at hm
    exact leaf_writes_in_writesO path o p v hm e he
theorem leaf_writes_in_writesO :
    ∀ (path : List Str) (o : JObj) (p : List Str) (v : Str),
    (p, v) ∈ leavesO path o → ∀ e ∈ leafWrites p v, e ∈ writesO path o
  | _, .nil, p, v => by
    intro hm
    simp [leavesO] at hm
  | path, .cons k w rest, p, v => by
    intro hm e he
    rw [leavesO] at hm
    rw [writesO, List.mem_append]
    rcases List.mem_append.mp hm with h | h
    · exact Or.inl (leaf_writes_in_writesV (path ++ [k]) w p v h e he)
    · exact Or.inr (leaf_writes_in_writesO path rest p v h e he)
end

theorem leafWrites_concat (ps : List Str) (rf v : Str)
    (hfo : canonical_field rf ∈ FIELD_ONLY_SET)
    (hsec : resolveSection ps.reverse ≠ []) :
    leafWrites (ps ++ [rf]) v =
      [(resolveSection ps.reverse ++ '.' :: canonical_field rf, v), (canonical_field rf, v)] := by
  have hfne : canonical_field rf ≠ [] := by
    intro h
    rw [h] at hfo
    revert hfo
    decide
  rw [leafWrites, List.getLast?_concat, List.dropLast_concat]
  dsimp only
  rw [if_pos (by simp [hsec, hfne] : (decide (resolveSection ps.reverse ≠ []) &&
        decide (canonical_field rf ≠ [])) = true),
      if_pos hfo]
  rfl

/-- C7: a leaf whose canonical field is in the field-only set and whose
resolved section is non-empty is indexed under BOTH the composite key and
the bare field key; in particular `{"RECONCILIATION": {"Depreciation":
"500"}}` yields both entries with value `"500"`. -/
theorem C7_field_only_dual_index :
    (∀ (merged : JObj) (ps : List Str) (rf v : Str),
      (ps ++ [rf], v) ∈ leavesO [] merged →
      canonical_field rf ∈ FIELD_ONLY_SET →
      resolveSection ps.reverse ≠ [] →
      (resolveSection ps.reverse ++ '.' :: canonical_field rf) ∈ keysOf (flatten_json merged) ∧
      canonical_field rf ∈ keysOf (flatten_json merged)) ∧
    alookup (flatten_json reconDoc) "RECONCILIATION.DEPRECIATION".toList = some "500".toList ∧
    alookup (flatten_json reconDoc) "DEPRECIATION".toList = some "500".toList := by
  refine ⟨?_, by decide, by decide⟩
  intro merged ps rf v hm hfo hsec
  have hw := leaf_writes_in_writesO [] merged (ps ++ [rf]) v hm
  rw [leafWrites_concat ps rf v hfo hsec] at hw
  have h1 : (resolveSection ps.reverse ++ '.' :: canonical_field rf, v) ∈ writesO [] merged :=
    hw _ (by simp)
  have h2 : (canonical_field rf, v) ∈ writesO [] merged :=
    hw _ (by simp)
  rw [flatten_json_eq_foldl]
  exact ⟨keysOf_foldl_of_write _ [] _ h1, keysOf_foldl_of_write _ [] _ h2⟩

/-- C7 witness: the leaf `(["RECONCILIATION", "Depreciation"], "500")`
of `reconDoc` satisfies the hypotheses, and both keys are indexed. -/
theorem C7_field_only_dual_index_witness :
    (["RECONCILIATION".toList, "Depreciation".toList], "500".toList) ∈ leavesO [] reconDoc ∧
    canonical_field "Depreciation".toList ∈ FIELD_ONLY_SET ∧
    resolveSection ["RECONCILIATION".toList].reverse ≠ [] ∧
    (resolveSection ["RECONCILIATION".toList].reverse ++
      '.' :: canonical_field "Depreciation".toList) ∈ keysOf (flatten_json reconDoc) ∧
    canonical_field "Depreciation".toList ∈ keysOf (flatten_json reconDoc) := by
  refine ⟨by decide, by decide, by decide, ?_⟩
  exact C7_field_only_dual_index.1 reconDoc ["RECONCILIATION".toList]
    "Depreciation".toList "500".toList (by decide) (by decide) (by decide)

theorem carriedG_append (g : Grid) (l : Str) (xs ys : List Nat) :
    carriedG g l (xs ++ ys) = carriedG g (carriedG g l xs) ys := by
  rw [carriedG, List.foldl_append]
  rfl

theorem carriedG_cons (g : Grid) (last : Str) (x : Nat) (t : List Nat) :
    carriedG g last (x :: t) =
      carriedG g (if canonSec g x ≠ [] then canonSec g x else last) t := rfl

theorem rawsFrom_append (g : Grid) :
    ∀ (xs ys : List Nat) (last : Str),
    rawsFrom g last (xs ++ ys) = rawsFrom g last xs ++ rawsFrom g (carriedG g last xs) ys := by
  intro xs
  induction xs with
  | nil => intro ys last; rfl
  | cons x t ih =>
    intro ys last
    rw [List.cons_append, rawsFrom, rawsFrom, ih, carriedG_cons, List.cons_append]

theorem carriedG_range (g : Grid) : ∀ n : Nat, carriedG g [] (List.range' 1 n) = specRaw g n := by
  intro n
  induction n with
  | zero => rfl
  | succ n ih =>
    rw [List.range'_concat, Nat.one_mul, carriedG_append, ih]
    show (if canonSec g (1 + n) ≠ [] then canonSec g (1 + n) else specRaw g n) = _
    rw [Nat.add_comm 1 n, specRaw]

theorem raws_map (g : Grid) :
    ∀ n : Nat, rawsFrom g [] (List.range' 1 n) = (List.range' 1 n).map (specRaw g) := by
  intro n
  induction n with
  | zero => rfl
  | succ n ih =>
    rw [List.range'_concat, Nat.one_mul, rawsFrom_append, ih, List.map_append, carriedG_range]
    congr 1
    show (if canonSec g (1 + n) ≠ [] then canonSec g (1 + n) else specRaw g n) :: [] = _
    rw [List.map_singleton, Nat.add_comm 1 n, specRaw]

theorem firstAt_map (t : Str) (f : Nat → Str) :
    ∀ (n a : Nat), firstAt t a ((List.range' a n).map f) =
      (List.range' a n).find? (fun c => f c = t) := by
  intro n
  induction n with
  | zero => intro a; rfl
  | succ n ih =>
    intro a
    rw [List.range'_succ, List.map_cons, firstAt]
    by_cases h : f a = t
    · rw [if_pos h, List.find?_cons_of_pos _ (by simp [h])]
    · rw [if_neg h, List.find?_cons_of_neg _ (by simp [h])]
      exact ih (a + 1)

theorem comp1Start_eq_claimComp1 (g : Grid) : comp1Start g = claimComp1 g := by
  rw [comp1Start, claimComp1, raws, raws_map, firstAt_map]

theorem getD_map_range' (f : Nat → Str) (n col : Nat) (h1 : 1 ≤ col) (h2 : col ≤ n) :
    ((List.range' 1 n).map f).getD (col - 1) [] = f col := by
  rw [List.getD_eq_getElem?_getD, List.getElem?_map]
  rw [show ((List.range' 1 n)[col - 1]? = some col) from ?_]
  · rfl
  · rw [List.getElem?_range']
    · congr 1; omega
    · omega

theorem raws_getD (g : Grid) (col : Nat) (h1 : 1 ≤ col) (h2 : col ≤ g.numCols) :
    (raws g).getD (col - 1) [] = specRaw g col := by
  rw [raws, raws_map]
  exact getD_map_range' (specRaw g) g.numCols col h1 h2

/-- C3: for every grid column, `detect_sections` assigns exactly the
section the claim describes: own label, else nearest non-blank label to
the left, else the positional `SUBJECT` fallback before the first
comparable block, else the `SALES_HISTORY_SUBJECT` field-identity
fallback, else empty. -/
theorem C3_detect_sections_spec (g : Grid) (col : Nat)
    (h1 : 1 ≤ col) (h2 : col ≤ g.numCols) :
    (detect_sections g).getD (col - 1) [] = claimSection g col := by
  rw [detect_sections, getD_map_range' (finalAt g) g.numCols col h1 h2]
  rw [finalAt, raws_getD g col h1 h2, comp1Start_eq_claimComp1]
  obtain ⟨c, rfl⟩ : ∃ c, col = c + 1 := ⟨col - 1, by omega⟩
  by_cases hc : canonSec g (c + 1) ≠ []
  · have hs : specRaw g (c + 1) = canonSec g (c + 1) := by
      rw [specRaw, if_pos hc]
    rw [claimSection, if_pos hc, hs, if_neg hc]
  · have hs : specRaw g (c + 1) = specRaw g c := by
      rw [specRaw, if_neg hc]
    rw [claimSection, if_neg hc, hs]
    have hd : (c + 1) - 1 = c := by omega
    rw [hd]
    by_cases hl : specRaw g c ≠ []
    · rw [if_pos hl, if_neg hl]
    · have hle : specRaw g c = [] := by by_contra hne; exact hl hne
      rw [if_neg hl, hle, if_pos rfl]

/-- C3 witness: in the concrete grid `wGrid`, column 1 resolves equally
on both sides. -/
theorem C3_detect_sections_spec_witness :
    1 ≤ 1 ∧ 1 ≤ wGrid.numCols ∧
    (detect_sections wGrid).getD 0 [] = claimSection wGrid 1 :=
  ⟨by decide, by decide, C3_detect_sections_spec wGrid 1 (by decide) (by decide)⟩

theorem char_eq_of_toNat {c d : Char} (h : c.toNat = d.toNat) : c = d := by
  rw [← Char.ofNat_toNat c, ← Char.ofNat_toNat d, h]

theorem toUp_toNat_of_low (c : Char) (h : isLow c = true) : (toUp c).toNat = c.toNat - 32 := by
  simp only [isLow, Bool.and_eq_true, decide_eq_true_eq] at h
  rw [toUp, if_pos (by simp [isLow]; omega)]
  unfold Char.ofNat
  rw [dif_pos (Or.inl (by omega : c.toNat - 32 < 0xD800))]
  rfl

theorem toUp_of_not_low (c : Char) (h : isLow c = false) : toUp c = c := by
  rw [toUp, if_neg]
  rw [h]
  exact Bool.false_ne_true

theorem isLow_toUp (c : Char) : isLow (toUp c) = false := by
  by_cases h : isLow c = true
  · have ht := toUp_toNat_of_low c h
    simp only [isLow, Bool.and_eq_true, decide_eq_true_eq] at h
    simp only [isLow, ht, Bool.and_eq_false_iff, decide_eq_false_iff_not]
    left; omega
  · rw [toUp_of_not_low c (Bool.not_eq_true _ ▸ h)]
    exact Bool.not_eq_true _ ▸ h

theorem toUp_toUp (c : Char) : toUp (toUp c) = toUp c :=
  toUp_of_not_low (toUp c) (isLow_toUp c)

theorem isPyWs_toUp (c : Char) : isPyWs (toUp c) = isPyWs c := by
  by_cases h : isLow c = true
  · have ht := toUp_toNat_of_low c h
    have h' : 97 ≤ c.toNat ∧ c.toNat ≤ 122 := by
      simpa [isLow] using h
    have hc : isPyWs c = false := by
      simp only [isPyWs, Bool.or_eq_false_iff, decide_eq_false_iff_not]
      omega
    have hup : isPyWs (toUp c) = false := by
      simp only [isPyWs, ht, Bool.or_eq_false_iff, decide_eq_false_iff_not]
      omega
    rw [hup, hc]
  · rw [toUp_of_not_low c (Bool.not_eq_true _ ▸ h)]

theorem isPyWs_eq_false_of_isDig (c : Char) (h : isDig c = true) : isPyWs c = false := by
  simp only [isDig, Bool.and_eq_true, decide_eq_true_eq] at h
  simp only [isPyWs, Bool.or_eq_false_iff, decide_eq_false_iff_not]
  omega

theorem isLow_eq_false_of_isDig (c : Char) (h : isDig c = true) : isLow c = false := by
  simp only [isDig, Bool.and_eq_true, decide_eq_true_eq] at h
  simp only [isLow, Bool.and_eq_false_iff, decide_eq_false_iff_not]
  omega

theorem toUp_of_isDig (c : Char) (h : isDig c = true) : toUp c = c :=
  toUp_of_not_low c (isLow_eq_false_of_isDig c h)

theorem ne_space_of_isDig (c : Char) (h : isDig c = true) : c ≠ ' ' := by
  simp only [isDig, Bool.and_eq_true, decide_eq_true_eq] at h
  intro he
  rw [he] at h
  revert h
  decide

theorem hasSub_cons (p : Str) (c : Char) (t : Str) :
    hasSub p (c :: t) = (isPre p (c :: t) || hasSub p t) := rfl

theorem hasSub_of_tail (p : Str) (c : Char) (t : Str) (h : hasSub p t = true) :
    hasSub p (c :: t) = true := by
  rw [hasSub_cons, h, Bool.or_true]

theorem hasSub_append_right (p a b : Str) (h : hasSub p b = true) :
    hasSub p (a ++ b) = true := by
  induction a with
  | nil => exact h
  | cons c t ih => exact hasSub_of_tail p c (t ++ b) ih

theorem wordsAux_good : ∀ (s acc : Str), (∀ ch ∈ acc, isPyWs ch = false) →
    ∀ w ∈ wordsAux acc s, w ≠ [] ∧ ∀ ch ∈ w, isPyWs ch = false := by
  intro s
  induction s with
  | nil =>
    intro acc hacc w hw
    rw [wordsAux] at hw
    by_cases ha : acc = []
    · rw [if_pos ha] at hw
      simp at hw
    · rw [if_neg ha] at hw
      rw [List.mem_singleton] at hw
      subst hw
      refine ⟨by simpa using ha, ?_⟩
      intro ch hch
      exact hacc ch (List.mem_reverse.mp hch)
  | cons c cs ih =>
    intro acc hacc w hw
    rw [wordsAux] at hw
    by_cases hc : isPyWs c = true
    · rw [if_pos hc] at hw
      by_cases ha : acc = []
      · rw [if_pos ha] at hw
        exact ih [] (by simp) w hw
      · rw [if_neg ha] at hw
        rcases List.mem_cons.mp hw with hw | hw
        · subst hw
          refine ⟨by simpa using ha, ?_⟩
          intro ch hch
          exact hacc ch (List.mem_reverse.mp hch)
        · exact ih [] (by simp) w hw
    · rw [if_neg hc] at hw
      refine ih (c :: acc) ?_ w hw
      intro ch hch
      rcases List.mem_cons.mp hch with h | h
      · subst h; exact Bool.not_eq_true _ ▸ hc
      · exact hacc ch h

theorem wordsAux_nonws_append : ∀ (w acc s : Str), (∀ ch ∈ w, isPyWs ch = false) →
    wordsAux acc (w ++ s) = wordsAux (w.reverse ++ acc) s := by
  intro w
  induction w with
  | nil => intro acc s _; rfl
  | cons c w' ih =>
    intro acc s hw
    rw [List.cons_append, wordsAux,
      if_neg (by rw [hw c (List.mem_cons_self c w')]; exact Bool.false_ne_true),
      ih (c :: acc) s (fun ch hch => hw ch (List.mem_cons_of_mem c hch)),
      List.reverse_cons, List.append_assoc, List.singleton_append]

theorem joinSp_words : ∀ L : List Str,
    (∀ w ∈ L, w ≠ [] ∧ ∀ ch ∈ w, isPyWs ch = false) →
    wordsAux [] (joinSp L) = L := by
  intro L
  induction L with
  | nil => intro _; rfl
  | cons w tail ih =>
    intro hL
    obtain ⟨hwne, hwch⟩ := hL w (List.mem_cons_self w tail)
    cases tail with
    | nil =>
      show wordsAux [] w = [w]
      conv_lhs => rw [← List.append_nil w]
      rw [wordsAux_nonws_append _ _ _ hwch, List.append_nil, wordsAux,
        if_neg (by simpa using hwne), List.reverse_reverse]
    | cons w' ws =>
      show wordsAux [] (w ++ ' ' :: joinSp (w' :: ws)) = w :: w' :: ws
      rw [wordsAux_nonws_append _ _ _ hwch, List.append_nil, wordsAux,
        if_pos (by decide : isPyWs ' ' = true), if_neg (by simpa using hwne),
        List.reverse_reverse, ih (fun v hv => hL v (List.mem_cons_of_mem w hv))]

theorem map_toUp_joinSp : ∀ L : List Str,
    (joinSp L).map toUp = joinSp (L.map (List.map toUp)) := by
  intro L
  induction L with
  | nil => rfl
  | cons w tail ih =>
    cases tail with
    | nil => rfl
    | cons w' ws =>
      show (w ++ ' ' :: joinSp (w' :: ws)).map toUp = List.map toUp w ++ ' ' :: _
      rw [List.map_append, List.map_cons, show toUp ' ' = ' ' from by decide, ih]
      rfl

theorem mem_joinSp : ∀ (L : List Str) (ch : Char), ch ∈ joinSp L →
    ch = ' ' ∨ ∃ w ∈ L, ch ∈ w := by
  intro L
  induction L with
  | nil => intro ch h; simp [joinSp] at h
  | cons w tail ih =>
    intro ch h
    cases tail with
    | nil => exact Or.inr ⟨w, List.mem_singleton.mpr rfl, h⟩
    | cons w' ws =>
      rw [show joinSp (w :: w' :: ws) = w ++ ' ' :: joinSp (w' :: ws) from rfl,
        List.mem_append] at h
      rcases h with h | h
      · exact Or.inr ⟨w, List.mem_cons_self w _, h⟩
      · rcases List.mem_cons.mp h with h | h
        · exact Or.inl h
        · rcases ih ch h with h | ⟨v, hv, hch⟩
          · exact Or.inl h
          · exact Or.inr ⟨v, List.mem_cons_of_mem w hv, hch⟩

theorem pstrip_eq_self (x : Str)
    (hh : ∀ h, x.head? = some h → isPyWs h = false)
    (hl : ∀ l, x.getLast? = some l → isPyWs l = false) :
    pstrip x = x := by
  cases x with
  | nil => rfl
  | cons c t =>
    rw [pstrip, List.dropWhile_cons,
      if_neg (by rw [hh c rfl]; exact Bool.false_ne_true)]
    cases hrev : (c :: t).reverse with
    | nil => exact absurd hrev (by simp)
    | cons l r =>
      have hlast : (c :: t).getLast? = some l := by
        rw [← List.head?_reverse, hrev]
        rfl
      rw [List.dropWhile_cons, if_neg (by rw [hl l hlast]; exact Bool.false_ne_true), ← hrev,
        List.reverse_reverse]

theorem replaceNl_eq_self (x : Str) (h : ∀ ch ∈ x, ch ≠ '\n') : replaceNl x = x := by
  rw [replaceNl]
  conv_rhs => rw [← List.map_id x]
  refine List.map_congr_left ?_
  intro a ha
  rw [if_neg (h a ha)]
  rfl

theorem replHS_eq_self : ∀ x : Str, hasSub "# ".toList x = false → replHS x = x := by
  intro x
  induction x using replHS.induct with
  | case1 => intro _; rfl
  | case2 c => intro _; rfl
  | case3 c d r hcd ih =>
    intro h
    exfalso
    obtain ⟨h1, h2⟩ := Bool.and_eq_true _ _ |>.mp hcd
    rw [decide_eq_true_eq] at h1 h2
    subst h1; subst h2
    rw [hasSub_cons, show isPre "# ".toList ('#' :: ' ' :: r) = true from rfl,
      Bool.true_or] at h
    exact Bool.true_eq_false ▸ h
  | case4 c d r hcd ih =>
    intro h
    rw [hasSub_cons] at h
    rw [replHS, if_neg (by rw [Bool.not_eq_true] at hcd ⊢; exact hcd),
      ih (Bool.or_eq_false_iff.mp h).2]

theorem norm_def (s : Str) :
    norm s = if s = [] then []
      else (joinSp (wordsAux [] (replHS (pstrip (replaceNl s))))).map toUp := rfl

theorem norm_eq_joinSp (s : Str) (hs : s ≠ []) : norm s = joinSp (normWords s) := by
  rw [norm_def, if_neg hs, map_toUp_joinSp, normWords]

theorem normWords_good (s : Str) : wordsGood (normWords s) := by
  intro w hw
  rw [normWords, List.mem_map] at hw
  obtain ⟨w0, hw0, rfl⟩ := hw
  obtain ⟨hne, hch⟩ := wordsAux_good _ [] (by simp) w0 hw0
  refine ⟨by simpa using hne, ?_⟩
  intro ch hch'
  rw [List.mem_map] at hch'
  obtain ⟨a, ha, rfl⟩ := hch'
  rw [isPyWs_toUp]
  exact hch a ha

theorem normWords_upfixed (s : Str) : ∀ w ∈ normWords s, ∀ ch ∈ w, toUp ch = ch := by
  intro w hw ch hch
  rw [normWords, List.mem_map] at hw
  obtain ⟨w0, _, rfl⟩ := hw
  rw [List.mem_map] at hch
  obtain ⟨a, _, rfl⟩ := hch
  exact toUp_toUp a

theorem joinSp_ne_nil (L : List Str) (hg : wordsGood L) (hL : L ≠ []) : joinSp L ≠ [] := by
  cases L with
  | nil => exact absurd rfl hL
  | cons w tail =>
    have hw := (hg w (List.mem_cons_self w tail)).1
    cases tail with
    | nil => exact hw
    | cons w' ws =>
      show w ++ ' ' :: joinSp (w' :: ws) ≠ []
      simp

theorem joinSp_head_mem (w : Str) (tail : List Str) :
    w ≠ [] → ∃ h, (joinSp (w :: tail)).head? = some h ∧ h ∈ w := by
  intro hw
  cases w with
  | nil => exact absurd rfl hw
  | cons c t =>
    cases tail with
    | nil => exact ⟨c, rfl, List.mem_cons_self c t⟩
    | cons w' ws =>
      refine ⟨c, ?_, List.mem_cons_self c t⟩
      show ((c :: t) ++ ' ' :: joinSp (w' :: ws)).head? = some c
      rfl

theorem getLast_mem_of_ne_nil (w : Str) (hw : w ≠ []) :
    ∃ l, w.getLast? = some l ∧ l ∈ w := by
  cases hrev : w.reverse with
  | nil => exact absurd (by simpa using hrev) hw
  | cons l r =>
    refine ⟨l, ?_, ?_⟩
    · rw [← List.head?_reverse, hrev]; rfl
    · have : l ∈ w.reverse := by rw [hrev]; exact List.mem_cons_self l r
      exact List.mem_reverse.mp this

theorem joinSp_getLast (L : List Str) (hg : wordsGood L) (hL : L ≠ []) :
    ∃ l, (joinSp L).getLast? = some l ∧ isPyWs l = false := by
  induction L with
  | nil => exact absurd rfl hL
  | cons w tail ih =>
    obtain ⟨hwne, hwch⟩ := hg w (List.mem_cons_self w tail)
    cases tail with
    | nil =>
      obtain ⟨l, hl, hlm⟩ := getLast_mem_of_ne_nil w hwne
      exact ⟨l, hl, hwch l hlm⟩
    | cons w' ws =>
      obtain ⟨l, hl, hlw⟩ := ih (fun v hv => hg v (List.mem_cons_of_mem w hv)) (by simp)
      refine ⟨l, ?_, hlw⟩
      show (w ++ ' ' :: joinSp (w' :: ws)).getLast? = some l
      rw [List.getLast?_append,
        show (' ' :: joinSp (w' :: ws) : Str) = [' '] ++ joinSp (w' :: ws) from rfl,
        List.getLast?_append, hl]
      rfl

theorem norm_joinSp_fixed (L : List Str) (hg : wordsGood L)
    (hup : ∀ w ∈ L, ∀ ch ∈ w, toUp ch = ch)
    (hhs : hasSub "# ".toList (joinSp L) = false) :
    norm (joinSp L) = joinSp L := by
  by_cases hnil : joinSp L = []
  · rw [hnil]; rfl
  · have hLne : L ≠ [] := by
      intro h
      rw [h] at hnil
      exact hnil rfl
    have h1 : replaceNl (joinSp L) = joinSp L := by
      refine replaceNl_eq_self _ ?_
      intro ch hch hnl
      rcases mem_joinSp L ch hch with h | ⟨w, hw, hchw⟩
      · rw [hnl] at h; exact absurd h (by decide)
      · have := (hg w hw).2 ch hchw
        rw [hnl] at this
        exact absurd this (by decide)
    have h2 : pstrip (joinSp L) = joinSp L := by
      refine pstrip_eq_self _ ?_ ?_
      · intro h hh
        cases L with
        | nil => exact absurd rfl hLne
        | cons w tail =>
          obtain ⟨h0, hh0, hmem⟩ := joinSp_head_mem w tail (hg w (List.mem_cons_self w tail)).1
          rw [hh] at hh0
          injection hh0 with he
          rw [he]
          exact (hg w (List.mem_cons_self w tail)).2 h0 hmem
      · intro l hlast
        obtain ⟨l0, hl0, hl0w⟩ := joinSp_getLast L hg hLne
        rw [hlast] at hl0
        injection hl0 with he
        rw [he]
        exact hl0w
    have h3 : replHS (joinSp L) = joinSp L := replHS_eq_self _ hhs
    rw [norm_def, if_neg hnil, h1, h2, h3, joinSp_words L hg, map_toUp_joinSp]
    congr 1
    conv_rhs => rw [← List.map_id L]
    refine List.map_congr_left ?_
    intro w hw
    conv_rhs => rw [← List.map_id w]
    exact List.map_congr_left (fun ch hch => hup w hw ch hch)

theorem norm_idem_of_noHS (s : Str) (h : hasSub "# ".toList (norm s) = false) :
    norm (norm s) = norm s := by
  by_cases hs : s = []
  · rw [hs]; rfl
  · rw [norm_eq_joinSp s hs] at h ⊢
    exact norm_joinSp_fixed _ (normWords_good s) (normWords_upfixed s) h

theorem norm_onlySpace (s : Str) : ∀ ch ∈ norm s, isPyWs ch = true → ch = ' ' := by
  intro ch hch hws
  by_cases hs : s = []
  · rw [hs, show norm ([] : Str) = [] from rfl] at hch
    simp at hch
  · rw [norm_eq_joinSp s hs] at hch
    rcases mem_joinSp _ ch hch with h | ⟨w, hw, hchw⟩
    · exact h
    · have := (normWords_good s w hw).2 ch hchw
      rw [this] at hws
      exact absurd hws Bool.false_ne_true

theorem norm_notLow (s : Str) : ∀ ch ∈ norm s, isLow ch = false := by
  intro ch hch
  by_cases hs : s = []
  · rw [hs, show norm ([] : Str) = [] from rfl] at hch
    simp at hch
  · rw [norm_eq_joinSp s hs] at hch
    rcases mem_joinSp _ ch hch with h | ⟨w, hw, hchw⟩
    · rw [h]; decide
    · rw [normWords, List.mem_map] at hw
      obtain ⟨w0, _, rfl⟩ := hw
      rw [List.mem_map] at hchw
      obtain ⟨a, _, rfl⟩ := hchw
      exact isLow_toUp a

theorem stripPre_some_iff : ∀ (p s r : Str), stripPre p s = some r ↔ s = p ++ r := by
  intro p
  induction p with
  | nil =>
    intro s r
    show some s = some r ↔ s = [] ++ r
    simp
  | cons a p' ih =>
    intro s r
    cases s with
    | nil =>
      constructor
      · intro h; simp [stripPre] at h
      · intro h; simp at h
    | cons b s' =>
      rw [stripPre]
      by_cases hab : a = b
      · subst hab
        rw [if_pos rfl, ih s' r, List.cons_append]
        simp

      · rw [if_neg hab]
        constructor
        · intro h; simp at h
        · intro h
          injection h with h1 _
          exact absurd h1.symm hab

theorem stripPre_append (p t : Str) : stripPre p (p ++ t) = some t :=
  (stripPre_some_iff p (p ++ t) t).mpr rfl

theorem dropWhile_head_false {p : Char → Bool} :
    ∀ (l : Str) (c : Char) (t : Str), l.dropWhile p = c :: t → p c = false := by
  intro l
  induction l with
  | nil => intro c t h; simp at h
  | cons x xs ih =>
    intro c t h
    rw [List.dropWhile_cons] at h
    by_cases hx : p x = true
    · rw [if_pos hx] at h
      exact ih c t h
    · rw [if_neg hx] at h
      injection h with h1 _
      rw [← h1]
      exact Bool.not_eq_true _ ▸ hx

theorem matchSale_some (s ds rest : Str) (h : matchSale s = some (ds, rest)) :
    ∃ w : Str, s = headerCS ++ (w ++ (ds ++ rest)) ∧ (∀ ch ∈ w, isPyWs ch = true) ∧
      ds ≠ [] ∧ (∀ ch ∈ ds, isDig ch = true) ∧
      (∀ c t, rest = c :: t → isDig c = false) := by
  rw [matchSale] at h
  cases heq : stripPre headerCS s with
  | none => rw [heq] at h; exact absurd h (by simp)
  | some r =>
    rw [heq] at h
    dsimp only at h
    by_cases hds : (r.dropWhile isPyWs).takeWhile isDig = []
    · rw [if_pos hds] at h
      exact absurd h (by simp)
    · rw [if_neg hds] at h
      injection h with h
      obtain ⟨h1, h2⟩ := Prod.mk.injEq .. ▸ h
      refine ⟨r.takeWhile isPyWs, ?_, ?_, ?_, ?_, ?_⟩
      · rw [(stripPre_some_iff headerCS s r).mp heq]
        congr 1
        rw [← h1, ← h2]
        rw [List.takeWhile_append_dropWhile, List.takeWhile_append_dropWhile]
      · intro ch hch; exact List.mem_takeWhile_imp hch
      · rw [← h1]; exact hds
      · intro ch hch; rw [← h1] at hch; exact List.mem_takeWhile_imp hch
      · intro c t hct
        rw [← h2] at hct
        exact dropWhile_head_false _ c t hct

theorem length_dropWhile_le (p : Char → Bool) (l : Str) :
    (l.dropWhile p).length ≤ l.length := by
  induction l with
  | nil => simp
  | cons x xs ih =>
    rw [List.dropWhile_cons]
    by_cases hx : p x = true
    · rw [if_pos hx]; simp; omega
    · rw [if_neg hx]

theorem matchSale_rest_length (s ds rest : Str) (h : matchSale s = some (ds, rest)) :
    rest.length + 18 ≤ s.length := by
  obtain ⟨w, hs, _, hds, _, _⟩ := matchSale_some s ds rest h
  have : ds.length ≥ 1 := by
    cases ds with
    | nil => exact absurd rfl hds
    | cons _ _ => simp
  rw [hs]
  simp only [List.length_append]
  have : headerCS.length = 17 := by decide
  omega

theorem subCompA_congr : ∀ (n m : Nat) (s : Str), s.length ≤ n → s.length ≤ m →
    subCompA n s = subCompA m s := by
  intro n
  induction n with
  | zero =>
    intro m s hn _
    have : s = [] := List.length_eq_zero.mp (Nat.le_zero.mp hn)
    subst this
    cases m <;> rfl
  | succ n ih =>
    intro m s hn hm
    cases s with
    | nil => cases m <;> rfl
    | cons c cs =>
      have hm1 : ∃ m', m = m' + 1 := by
        cases m with
        | zero => simp at hm
        | succ m' => exact ⟨m', rfl⟩
      obtain ⟨m', rfl⟩ := hm1
      rw [subCompA, subCompA]
      cases heq : matchSale (c :: cs) with
      | some p =>
        obtain ⟨ds, rest⟩ := p
        have hlen := matchSale_rest_length _ _ _ heq
        simp only [List.length_cons] at hn hm hlen
        show headerCS ++ ds ++ subCompA n rest = headerCS ++ ds ++ subCompA m' rest
        rw [ih m' rest (by omega) (by omega)]
      | none =>
        simp only [List.length_cons] at hn hm
        show c :: subCompA n cs = c :: subCompA m' cs
        rw [ih m' cs (by omega) (by omega)]

theorem subComp_cons (c : Char) (cs : Str) :
    subComp (c :: cs) = match matchSale (c :: cs) with
      | some (ds, rest) => headerCS ++ ds ++ subComp rest
      | none => c :: subComp cs := by
  rw [subComp]
  show subCompA (cs.length + 1) (c :: cs) = _
  rw [subCompA]
  cases heq : matchSale (c :: cs) with
  | some p =>
    obtain ⟨ds, rest⟩ := p
    have hlen := matchSale_rest_length _ _ _ heq
    simp only [List.length_cons] at hlen
    show headerCS ++ ds ++ subCompA cs.length rest = headerCS ++ ds ++ subComp rest
    rw [subCompA_congr cs.length rest.length rest (by omega) (le_refl _)]
    rfl
  | none => rfl

theorem isPre_hs_of_ne (c : Char) (t : Str) (hne : c ≠ '#') :
    isPre "# ".toList (c :: t) = false := by
  rw [isPre, show ("# ".toList : Str) = '#' :: [' '] from rfl, stripPre,
    if_neg (fun h => hne h.symm)]
  rfl

theorem hasSub_hs_cons_ne (c : Char) (t : Str) (hne : c ≠ '#') :
    hasSub "# ".toList (c :: t) = hasSub "# ".toList t := by
  rw [hasSub_cons, isPre_hs_of_ne c t hne, Bool.false_or]

theorem hasSub_hs_no_hash : ∀ x : Str, (∀ ch ∈ x, ch ≠ '#') → hasSub "# ".toList x = false := by
  intro x
  induction x with
  | nil => intro _; rfl
  | cons c t ih =>
    intro h
    rw [hasSub_hs_cons_ne c t (h c (List.mem_cons_self c t))]
    exact ih (fun ch hch => h ch (List.mem_cons_of_mem c hch))

theorem ne_hash_of_isDig (c : Char) (h : isDig c = true) : c ≠ '#' := by
  simp only [isDig, Bool.and_eq_true, decide_eq_true_eq] at h
  intro he
  rw [he] at h
  revert h
  decide

theorem subComp_eq_self : ∀ (x : Str),
    (∀ ch ∈ x, isPyWs ch = true → ch = ' ') →
    hasSub "# ".toList x = false → subComp x = x := by
  have main : ∀ (n : Nat) (x : Str), x.length ≤ n →
      (∀ ch ∈ x, isPyWs ch = true → ch = ' ') →
      hasSub "# ".toList x = false → subComp x = x := by
    intro n
    induction n with
    | zero =>
      intro x hn _ _
      have : x = [] := List.length_eq_zero.mp (Nat.le_zero.mp hn)
      rw [this]
      rfl
    | succ n ih =>
      intro x hn h1 h2
      cases x with
      | nil => rfl
      | cons c cs =>
        rw [subComp_cons]
        cases heq : matchSale (c :: cs) with
        | some p =>
          obtain ⟨ds, rest⟩ := p
          obtain ⟨w, hs, hw, hds, hdig, hrh⟩ := matchSale_some _ _ _ heq
          cases w with
          | cons wc wt =>
            exfalso
            have hwcs : wc = ' ' := by
              refine h1 wc ?_ (hw wc (List.mem_cons_self wc wt))
              rw [hs]
              simp
            have : hasSub "# ".toList (c :: cs) = true := by
              rw [hs, hwcs,
                show (headerCS : Str) = "COMPARABLE SALE ".toList ++ ['#'] from rfl,
                List.append_assoc]
              refine hasSub_append_right _ _ _ ?_
              rw [List.singleton_append, List.cons_append, hasSub_cons]
              rw [show isPre "# ".toList ('#' :: ' ' :: (wt ++ (ds ++ rest))) = true from rfl]
              rfl
            rw [this] at h2
            exact Bool.true_eq_false ▸ h2
          | nil =>
            rw [List.nil_append] at hs
            have hlen := matchSale_rest_length _ _ _ heq
            have hsub : subComp rest = rest := by
              refine ih rest (by simp only [List.length_cons] at hn hlen; omega) ?_ ?_
              · intro ch hch hws
                refine h1 ch ?_ hws
                rw [hs]
                simp [hch]
              · by_contra hne
                have : hasSub "# ".toList (c :: cs) = true := by
                  rw [hs, show (headerCS ++ (ds ++ rest) : Str) = (headerCS ++ ds) ++ rest from by
                    rw [List.append_assoc]]
                  exact hasSub_append_right _ _ _ (Bool.not_eq_false _ ▸ hne)
                rw [this] at h2
                exact Bool.true_eq_false ▸ h2
            show headerCS ++ ds ++ subComp rest = c :: cs
            rw [hsub, hs, List.append_assoc]
        | none =>
          have hsub : subComp cs = cs := by
            refine ih cs (by simp at hn; omega) ?_ ?_
            · intro ch hch hws
              exact h1 ch (List.mem_cons_of_mem c hch) hws
            · rw [hasSub_cons] at h2
              exact (Bool.or_eq_false_iff.mp h2).2
          show c :: subComp cs = c :: cs
          rw [hsub]
  intro x
  exact main x.length x (le_refl _)

theorem sectionCascade_some (s ds : Str) (h : compMatch s = some ds) :
    sectionCascade s = headerCS ++ ds := by
  rw [sectionCascade, h]

theorem sectionCascade_none (s : Str) (h : compMatch s = none) :
    sectionCascade s =
      (if isPre headerCS s then subComp s
       else if hasSub "ONE-UNIT HOUSING TRENDS".toList s then "ONE_UNIT_HOUSING_TRENDS".toList
       else if hasSub "ONE-UNIT HOUSING".toList s then "ONE_UNIT_HOUSING".toList
       else if hasSub "RECONCILIATION".toList s then "RECONCILIATION".toList
       else if hasSub "COST APPROACH".toList s then "COST_APPROACH".toList
       else if hasSub "SALES".toList s && hasSub "HISTORY".toList s then "SALES_HISTORY".toList
       else if s = "SUBJECT".toList then "SUBJECT".toList
       else s) := by
  rw [sectionCascade, h]

theorem compMatch_some_spec (s ds : Str) (h : compMatch s = some ds) :
    ds ≠ [] ∧ ∀ ch ∈ ds, isDig ch = true := by
  rw [compMatch] at h
  have main : ∀ r : Str, afterWsDigits r = some ds → ds ≠ [] ∧ ∀ ch ∈ ds, isDig ch = true := by
    intro r hr
    rw [afterWsDigits] at hr
    by_cases hds : (r.dropWhile isPyWs).takeWhile isDig = []
    · rw [if_pos hds] at hr; exact absurd hr (by simp)
    · rw [if_neg hds] at hr
      injection hr with hr
      subst hr
      exact ⟨hds, fun ch hch => List.mem_takeWhile_imp hch⟩
  cases h1 : stripPre "COMPARABE".toList s with
  | some r =>
    rw [h1] at h
    exact main r h
  | none =>
    rw [h1] at h
    cases h2 : stripPre "COMPARBE".toList s with
    | some r => rw [h2] at h; exact main r h
    | none => rw [h2] at h; exact absurd h (by simp)

theorem compMatch_none_header (t : Str) : compMatch (headerCS ++ t) = none := rfl

theorem isPre_headerCS_append (t : Str) : isPre headerCS (headerCS ++ t) = true := by
  rw [isPre, stripPre_append]
  rfl

theorem hasSub_hs_append_left_free (a b : Str) (ha : ∀ ch ∈ a, ch ≠ '#') :
    hasSub "# ".toList (a ++ b) = hasSub "# ".toList b := by
  induction a with
  | nil => rfl
  | cons c t ih =>
    rw [List.cons_append, hasSub_hs_cons_ne c _ (ha c (List.mem_cons_self c t)),
      ih (fun ch hch => ha ch (List.mem_cons_of_mem c hch))]

theorem hasSub_header_ds (ds : Str) (hdig : ∀ ch ∈ ds, isDig ch = true) :
    hasSub "# ".toList (headerCS ++ ds) = false := by
  rw [show (headerCS : Str) = "COMPARABLE SALE ".toList ++ ['#'] from rfl, List.append_assoc,
    hasSub_hs_append_left_free _ _ (by decide), List.singleton_append, hasSub_cons]
  have h2 : hasSub "# ".toList ds = false :=
    hasSub_hs_no_hash ds (fun ch hch => ne_hash_of_isDig ch (hdig ch hch))
  have h1 : isPre "# ".toList ('#' :: ds) = false := by
    cases ds with
    | nil => rfl
    | cons d t =>
      rw [isPre, show ("# ".toList : Str) = '#' :: [' '] from rfl, stripPre, if_pos rfl,
        stripPre, if_neg (fun hh => ne_space_of_isDig d (hdig d (List.mem_cons_self d t)) hh.symm)]
      rfl
  rw [h1, h2]
  rfl

theorem norm_headerDs (ds : Str) (_hne : ds ≠ []) (hdig : ∀ ch ∈ ds, isDig ch = true) :
    norm (headerCS ++ ds) = headerCS ++ ds := by
  have hjoin : (joinSp ["COMPARABLE".toList, "SALE".toList, '#' :: ds] : Str) =
      headerCS ++ ds := rfl
  rw [← hjoin]
  refine norm_joinSp_fixed _ ?_ ?_ ?_
  · intro w hw
    rcases List.mem_cons.mp hw with hw | hw
    · subst hw; exact ⟨by decide, by decide⟩
    rcases List.mem_cons.mp hw with hw | hw
    · subst hw; exact ⟨by decide, by decide⟩
    rcases List.mem_cons.mp hw with hw | hw
    · subst hw
      refine ⟨by simp, ?_⟩
      intro ch hch
      rcases List.mem_cons.mp hch with h | h
      · subst h; decide
      · exact isPyWs_eq_false_of_isDig ch (hdig ch h)
    · simp at hw
  · intro w hw ch hch
    rcases List.mem_cons.mp hw with hw | hw
    · subst hw
      exact (by decide : ∀ c ∈ "COMPARABLE".toList, toUp c = c) ch hch
    rcases List.mem_cons.mp hw with hw | hw
    · subst hw
      exact (by decide : ∀ c ∈ "SALE".toList, toUp c = c) ch hch
    rcases List.mem_cons.mp hw with hw | hw
    · subst hw
      rcases List.mem_cons.mp hch with h | h
      · subst h; decide
      · exact toUp_of_isDig ch (hdig ch h)
    · simp at hw
  · rw [hjoin]
    exact hasSub_header_ds ds hdig

theorem headerDs_onlySpace (ds : Str) (hdig : ∀ ch ∈ ds, isDig ch = true) :
    ∀ ch ∈ headerCS ++ ds, isPyWs ch = true → ch = ' ' := by
  intro ch hch hws
  rcases List.mem_append.mp hch with h | h
  · exact (by decide : ∀ c ∈ headerCS, isPyWs c = true → c = ' ') ch h hws
  · rw [isPyWs_eq_false_of_isDig ch (hdig ch h)] at hws
    exact absurd hws Bool.false_ne_true

theorem sectionCascade_headerDs (ds : Str) (_hne : ds ≠ []) (hdig : ∀ ch ∈ ds, isDig ch = true) :
    sectionCascade (headerCS ++ ds) = headerCS ++ ds := by
  rw [sectionCascade_none _ (compMatch_none_header ds), if_pos (isPre_headerCS_append ds)]
  exact subComp_eq_self _ (headerDs_onlySpace ds hdig) (hasSub_header_ds ds hdig)

/-- C6 counterexample: for the label `"#  1"` (hash, two spaces, digit),
`canonical_section` returns `"# 1"` on first application and `"#1"` on the
second — the `"# "` contraction of `norm` makes the cascade
non-idempotent on this input. -/
theorem C6_cex_not_idempotent :
    canonical_section (canonical_section "#  1".toList) ≠ canonical_section "#  1".toList := by
  decide

/-- C6 (amended): `canonical_section` is idempotent on every label whose
normalized form contains no residual `"# "` substring (the counterexample
shows the unrestricted claim fails exactly on labels whose normalization
leaves a hash followed by a space). -/
theorem C6_canonical_section_idem (s : Str)
    (h : hasSub "# ".toList (norm s) = false) :
    canonical_section (canonical_section s) = canonical_section s := by
  have hidem : norm (norm s) = norm s := norm_idem_of_noHS s h
  show sectionCascade (norm (sectionCascade (norm s))) = sectionCascade (norm s)
  cases hcm : compMatch (norm s) with
  | some ds =>
    obtain ⟨hds, hdig⟩ := compMatch_some_spec _ ds hcm
    rw [sectionCascade_some _ ds hcm, norm_headerDs ds hds hdig,
      sectionCascade_headerDs ds hds hdig]
  | none =>
    rw [sectionCascade_none _ hcm]
    by_cases hp : isPre headerCS (norm s) = true
    · rw [if_pos hp]
      have hsc : subComp (norm s) = norm s :=
        subComp_eq_self _ (norm_onlySpace s) h
      rw [hsc, hidem, sectionCascade_none _ hcm, if_pos hp, hsc]
    · rw [if_neg hp]
      by_cases h1 : hasSub "ONE-UNIT HOUSING TRENDS".toList (norm s) = true
      · rw [if_pos h1]; decide
      rw [if_neg h1]
      by_cases h2 : hasSub "ONE-UNIT HOUSING".toList (norm s) = true
      · rw [if_pos h2]; decide
      rw [if_neg h2]
      by_cases h3 : hasSub "RECONCILIATION".toList (norm s) = true
      · rw [if_pos h3]; decide
      rw [if_neg h3]
      by_cases h4 : hasSub "COST APPROACH".toList (norm s) = true
      · rw [if_pos h4]; decide
      rw [if_neg h4]
      by_cases h5 : (hasSub "SALES".toList (norm s) && hasSub "HISTORY".toList (norm s)) = true
      · rw [if_pos h5]; decide
      rw [if_neg h5]
      by_cases h6 : norm s = "SUBJECT".toList
      · rw [if_pos h6]; decide
      · rw [if_neg h6, hidem, sectionCascade_none _ hcm, if_neg hp, if_neg h1, if_neg h2,
          if_neg h3, if_neg h4, if_neg h5, if_neg h6]

/-- C6 witness: the amended idempotence at the concrete label
`"Comparable Sale #3"`, whose normalization has no `"# "` substring. -/
theorem C6_canonical_section_idem_witness :
    hasSub "# ".toList (norm "Comparable Sale #3".toList) = false ∧
    canonical_section (canonical_section "Comparable Sale #3".toList) =
      canonical_section "Comparable Sale #3".toList :=
  ⟨by decide, C6_canonical_section_idem _ (by decide)⟩

theorem isPre_append_of_isPre (q a b : Str) (h : isPre q a = true) : isPre q (a ++ b) = true := by
  rw [isPre] at h ⊢
  cases heq : stripPre q a with
  | none => rw [heq] at h; exact absurd h (by simp)
  | some r =>
    have : a = q ++ r := (stripPre_some_iff q a r).mp heq
    rw [this, List.append_assoc, stripPre_append]
    rfl

theorem hasSub_append_left (q a b : Str) (h : hasSub q a = true) :
    hasSub q (a ++ b) = true := by
  induction a with
  | nil =>
    rw [show hasSub q [] = q.isEmpty from rfl] at h
    have : q = [] := by
      cases q with
      | nil => rfl
      | cons x t => simp at h
    subst this
    cases b with
    | nil => rfl
    | cons c t =>
      rw [List.nil_append, hasSub_cons, show isPre [] (c :: t) = true from rfl]
      rfl
  | cons c t ih =>
    rw [hasSub_cons] at h
    rcases Bool.or_eq_true _ _ |>.mp h with h | h
    · have h2 := isPre_append_of_isPre q (c :: t) b h
      rw [List.cons_append] at h2
      rw [List.cons_append, hasSub_cons, h2, Bool.true_or]
    · rw [List.cons_append, hasSub_cons, ih h, Bool.or_true]

theorem hasSub_of_prefix (q p s : Str) (hp : p <+: s) (h : hasSub q p = true) :
    hasSub q s = true := by
  obtain ⟨t, rfl⟩ := hp
  exact hasSub_append_left q p t h

theorem subComp_header_head (t : Str) : ∃ r, subComp (headerCS ++ t) = 'C' :: r := by
  rw [show (headerCS ++ t : Str) = 'C' :: ("OMPARABLE SALE #".toList ++ t) from rfl,
    subComp_cons]
  cases heq : matchSale ('C' :: ("OMPARABLE SALE #".toList ++ t)) with
  | some p =>
    obtain ⟨ds, rest⟩ := p
    exact ⟨_, rfl⟩
  | none => exact ⟨subComp ("OMPARABLE SALE #".toList ++ t), rfl⟩

theorem sectionCascade_range (x : Str) :
    (∃ r, sectionCascade x = 'C' :: r) ∨
    sectionCascade x = "ONE_UNIT_HOUSING_TRENDS".toList ∨
    sectionCascade x = "ONE_UNIT_HOUSING".toList ∨
    sectionCascade x = "RECONCILIATION".toList ∨
    sectionCascade x = "COST_APPROACH".toList ∨
    sectionCascade x = "SALES_HISTORY".toList ∨
    sectionCascade x = "SUBJECT".toList ∨
    (sectionCascade x = x ∧
      ¬(hasSub "SALES".toList x = true ∧ hasSub "HISTORY".toList x = true)) := by
  cases hcm : compMatch x with
  | some ds =>
    rw [sectionCascade_some _ ds hcm]
    exact Or.inl ⟨_, rfl⟩
  | none =>
    rw [sectionCascade_none _ hcm]
    by_cases hp : isPre headerCS x = true
    · rw [if_pos hp]
      rw [isPre] at hp
      cases heq : stripPre headerCS x with
      | none => rw [heq] at hp; exact absurd hp (by simp)
      | some t =>
        have hx : x = headerCS ++ t := (stripPre_some_iff _ _ _).mp heq
        rw [hx]
        exact Or.inl (subComp_header_head t)
    · rw [if_neg hp]
      by_cases h1 : hasSub "ONE-UNIT HOUSING TRENDS".toList x = true
      · rw [if_pos h1]; exact Or.inr (Or.inl rfl)
      rw [if_neg h1]
      by_cases h2 : hasSub "ONE-UNIT HOUSING".toList x = true
      · rw [if_pos h2]; exact Or.inr (Or.inr (Or.inl rfl))
      rw [if_neg h2]
      by_cases h3 : hasSub "RECONCILIATION".toList x = true
      · rw [if_pos h3]; exact Or.inr (Or.inr (Or.inr (Or.inl rfl)))
      rw [if_neg h3]
      by_cases h4 : hasSub "COST APPROACH".toList x = true
      · rw [if_pos h4]; exact Or.inr (Or.inr (Or.inr (Or.inr (Or.inl rfl))))
      rw [if_neg h4]
      by_cases h5 : (hasSub "SALES".toList x && hasSub "HISTORY".toList x) = true
      · rw [if_pos h5]; exact Or.inr (Or.inr (Or.inr (Or.inr (Or.inr (Or.inl rfl)))))
      rw [if_neg h5]
      by_cases h6 : x = "SUBJECT".toList
      · rw [if_pos h6]
        exact Or.inr (Or.inr (Or.inr (Or.inr (Or.inr (Or.inr (Or.inl rfl))))))
      · rw [if_neg h6]
        refine Or.inr (Or.inr (Or.inr (Or.inr (Or.inr (Or.inr (Or.inr ⟨rfl, ?_⟩))))))
        intro ⟨ha, hb⟩
        exact h5 (by rw [ha, hb]; rfl)

theorem canonical_section_range (s : Str) :
    (∃ r, canonical_section s = 'C' :: r) ∨
    canonical_section s = "ONE_UNIT_HOUSING_TRENDS".toList ∨
    canonical_section s = "ONE_UNIT_HOUSING".toList ∨
    canonical_section s = "RECONCILIATION".toList ∨
    canonical_section s = "COST_APPROACH".toList ∨
    canonical_section s = "SALES_HISTORY".toList ∨
    canonical_section s = "SUBJECT".toList ∨
    (canonical_section s = norm s ∧
      ¬(hasSub "SALES".toList (norm s) = true ∧ hasSub "HISTORY".toList (norm s) = true)) :=
  sectionCascade_range (norm s)

theorem resolveSection_range : ∀ l : List Str,
    resolveSection l = [] ∨ ∃ p ∈ l, resolveSection l = canonical_section p := by
  intro l
  induction l with
  | nil => exact Or.inl rfl
  | cons p rest ih =>
    rw [resolveSection]
    by_cases hp : canonical_section p ≠ []
    · rw [if_pos hp]
      exact Or.inr ⟨p, List.mem_cons_self p rest, rfl⟩
    · rw [if_neg hp]
      rcases ih with h | ⟨q, hq, hr⟩
      · exact Or.inl h
      · exact Or.inr ⟨q, List.mem_cons_of_mem p hq, hr⟩

theorem leafWrites_goodKey (path : List Str) (v k val : Str)
    (h : (k, val) ∈ leafWrites path v) : goodKey k := by
  rw [leafWrites] at h
  cases hlast : path.getLast? with
  | none => rw [hlast] at h; simp at h
  | some rf =>
    rw [hlast] at h
    dsimp only at h
    rcases List.mem_append.mp h with h | h
    · by_cases hc : (decide (resolveSection path.dropLast.reverse ≠ []) &&
          decide (canonical_field rf ≠ [])) = true
      · rw [if_pos hc] at h
        rw [List.mem_singleton] at h
        obtain ⟨h1, _⟩ := Prod.mk.injEq .. ▸ h
        obtain ⟨hs, _⟩ := Bool.and_eq_true _ _ |>.mp hc
        rw [decide_eq_true_eq] at hs
        rcases resolveSection_range path.dropLast.reverse with hr | ⟨p, _, hr⟩
        · exact absurd hr hs
        · exact Or.inl ⟨p, rf, hr ▸ hs, by rw [h1, hr]⟩
      · rw [if_neg hc] at h
        simp at h
    · by_cases hc : canonical_field rf ∈ FIELD_ONLY_SET
      · rw [if_pos hc] at h
        rw [List.mem_singleton] at h
        obtain ⟨h1, _⟩ := Prod.mk.injEq .. ▸ h
        exact Or.inr (h1 ▸ hc)
      · rw [if_neg hc] at h
        simp at h

mutual
theorem writesV_goodKey : ∀ (path : List Str) (w : JVal) (k val : Str),
    (k, val) ∈ writesV path w → goodKey k
  | path, .str s, k, val => by
    intro h
    rw [writesV] at h
    exact leafWrites_goodKey path s k val h
  | path, .obj o, k, val => by
    intro h
    rw [writesV] at h
    exact writesO_goodKey path o k val h
theorem writesO_goodKey : ∀ (path : List Str) (o : JObj) (k val : Str),
    (k, val) ∈ writesO path o → goodKey k
  | _, .nil, k, val => by intro h; rw [writesO] at h; simp at h
  | path, .cons kk v rest, k, val => by
    intro h
    rw [writesO] at h
    rcases List.mem_append.mp h with h | h
    · exact writesV_goodKey (path ++ [kk]) v k val h
    · exact writesO_goodKey path rest k val h
end

theorem keysOf_dins_sub (a b : Str) (f : Flat) (k : Str) (h : k ∈ keysOf (dins a b f)) :
    k = a ∨ k ∈ keysOf f := by
  induction f with
  | nil =>
    rw [show dins a b [] = [(a, b)] from rfl] at h
    simp [keysOf] at h
    exact Or.inl h
  | cons p t ih =>
    obtain ⟨x, y⟩ := p
    by_cases hx : x = a
    · subst hx
      rw [show dins x b ((x, y) :: t) = (x, b) :: t from by simp [dins]] at h
      simp only [keysOf, List.map_cons, List.mem_cons] at h
      rcases h with h | h
      · exact Or.inl h
      · exact Or.inr (by simp only [keysOf, List.map_cons, List.mem_cons]; exact Or.inr h)
    · rw [show dins a b ((x, y) :: t) = (x, y) :: dins a b t from by simp [dins, hx]] at h
      simp only [keysOf, List.map_cons, List.mem_cons] at h
      rcases h with h | h
      · exact Or.inr (by simp only [keysOf, List.map_cons, List.mem_cons]; exact Or.inl h)
      · rcases ih h with h | h
        · exact Or.inl h
        · exact Or.inr (by simp only [keysOf, List.map_cons, List.mem_cons]; exact Or.inr h)

theorem keysOf_foldl_sub : ∀ (ws : List (Str × Str)) (f : Flat) (k : Str),
    k ∈ keysOf (ws.foldl dstep f) → k ∈ keysOf f ∨ ∃ val, (k, val) ∈ ws := by
  intro ws
  induction ws with
  | nil => intro f k h; exact Or.inl h
  | cons w t ih =>
    intro f k h
    rw [List.foldl_cons] at h
    rcases ih (dstep f w) k h with h | ⟨val, hval⟩
    · rcases keysOf_dins_sub w.1 w.2 f k h with h | h
      · exact Or.inr ⟨w.2, by rw [h]; exact List.mem_cons_self w t⟩
      · exact Or.inl h
    · exact Or.inr ⟨val, List.mem_cons_of_mem w hval⟩

theorem flatten_keys_goodKey (m : JObj) (k : Str) (h : k ∈ keysOf (flatten_json m)) :
    goodKey k := by
  rw [flatten_json_eq_foldl] at h
  rcases keysOf_foldl_sub _ [] k h with h | ⟨val, hval⟩
  · simp [keysOf] at h
  · exact writesO_goodKey [] m k val hval

theorem alookup_some_mem_keys {l : Flat} {k : Str} {v : Str} (h : alookup l k = some v) :
    k ∈ keysOf l := by
  rw [alookup] at h
  cases heq : l.find? (fun p => p.1 = k) with
  | none => rw [heq] at h; exact absurd h (by simp)
  | some p =>
    have hm := List.mem_of_find?_eq_some heq
    have hp := List.find?_some heq
    rw [decide_eq_true_eq] at hp
    rw [keysOf, List.mem_map]
    exact ⟨p, hm, hp⟩

theorem canonical_field_notLow (f0 : Str) : ∀ ch ∈ canonical_field f0, isLow ch = false := by
  intro ch hch
  rw [canonical_field, fieldSyn] at hch
  cases heq : alookup FIELD_SYNONYMS (norm f0) with
  | none =>
    rw [heq] at hch
    exact norm_notLow f0 ch hch
  | some v =>
    rw [heq] at hch
    rw [alookup] at heq
    cases hfind : FIELD_SYNONYMS.find? (fun p => p.1 = norm f0) with
    | none => rw [hfind] at heq; exact absurd heq (by simp)
    | some p =>
      rw [hfind] at heq
      injection heq with heq
      have hv : p.2 = v := heq
      have hm := List.mem_of_find?_eq_some hfind
      have hall : ∀ q ∈ FIELD_SYNONYMS, ∀ c ∈ q.2, isLow c = false := by decide
      exact hall p hm ch (by rw [hv]; exact hch)

theorem takeWhile_append_stop (a : Str) (d : Char) (b : Str) (hd : notDot d = false) :
    (a ++ d :: b).takeWhile notDot = a.takeWhile notDot := by
  induction a with
  | nil =>
    rw [List.nil_append, List.takeWhile_cons, if_neg (by rw [hd]; exact Bool.false_ne_true)]
    rfl
  | cons c t ih =>
    rw [List.cons_append, List.takeWhile_cons, List.takeWhile_cons, ih]

theorem takeWhile_all_notDot (a : Str) (h : ∀ ch ∈ a, notDot ch = true) :
    a.takeWhile notDot = a := by
  induction a with
  | nil => rfl
  | cons c t ih =>
    rw [List.takeWhile_cons, if_pos (h c (List.mem_cons_self c t)),
      ih (fun ch hch => h ch (List.mem_cons_of_mem c hch))]

theorem no_shs_composite_key (m : JObj) (f v : Str)
    (h : alookup (flatten_json m) ("SALES_HISTORY_SUBJECT".toList ++ '.' :: f) = some v) :
    False := by
  have hk := flatten_keys_goodKey m _ (alookup_some_mem_keys h)
  rcases hk with ⟨s0, f0, hne, heq⟩ | hmem
  · have htw := congrArg (List.takeWhile notDot) heq
    rw [takeWhile_append_stop _ '.' f (by decide),
      takeWhile_append_stop _ '.' (canonical_field f0) (by decide),
      takeWhile_all_notDot "SALES_HISTORY_SUBJECT".toList (by decide)] at htw
    rcases canonical_section_range s0 with ⟨r, hr⟩ | hr | hr | hr | hr | hr | hr | ⟨hr, hnsh⟩
    · rw [hr, List.takeWhile_cons, if_pos (by decide)] at htw
      rw [show ("SALES_HISTORY_SUBJECT".toList : Str) =
        'S' :: "ALES_HISTORY_SUBJECT".toList from rfl] at htw
      injection htw with h1 _
      exact absurd h1 (by decide)
    · rw [hr] at htw; exact absurd htw (by decide)
    · rw [hr] at htw; exact absurd htw (by decide)
    · rw [hr] at htw; exact absurd htw (by decide)
    · rw [hr] at htw; exact absurd htw (by decide)
    · rw [hr] at htw; exact absurd htw (by decide)
    · rw [hr] at htw; exact absurd htw (by decide)
    · rw [hr] at htw
      have hpre : ("SALES_HISTORY_SUBJECT".toList : Str) <+: norm s0 := by
        rw [htw]
        exact List.takeWhile_prefix notDot
      have hsales : hasSub "SALES".toList (norm s0) = true :=
        hasSub_of_prefix _ _ _ hpre (by decide)
      have hhist : hasSub "HISTORY".toList (norm s0) = true :=
        hasSub_of_prefix _ _ _ hpre (by decide)
      exact hnsh ⟨hsales, hhist⟩
  · have hP : ("SALES_HISTORY_SUBJECT".toList ++ '.' :: f : Str) =
      'S' :: ("ALES_HISTORY_SUBJECT".toList ++ '.' :: f) := rfl
    simp only [FIELD_ONLY_SET, List.mem_cons, List.not_mem_nil, or_false] at hmem
    rcases hmem with hm | hm | hm | hm | hm | hm <;>
      (rw [hP] at hm; injection hm with h1 _; exact absurd h1 (by decide))

theorem no_shs_bridge_key (m : JObj) (f v : Str)
    (h : alookup (flatten_json m) ("SALES_HISTORY.Subject.".toList ++ f) = some v) :
    False := by
  have hk := flatten_keys_goodKey m _ (alookup_some_mem_keys h)
  rcases hk with ⟨s0, f0, hne, heq⟩ | hmem
  · have hkey : ("SALES_HISTORY.Subject.".toList ++ f : Str) =
      "SALES_HISTORY".toList ++ '.' :: ("Subject.".toList ++ f) := rfl
    have htw := congrArg (List.takeWhile notDot) heq
    rw [hkey, takeWhile_append_stop _ '.' _ (by decide),
      takeWhile_append_stop _ '.' (canonical_field f0) (by decide),
      takeWhile_all_notDot "SALES_HISTORY".toList (by decide)] at htw
    rcases canonical_section_range s0 with ⟨r, hr⟩ | hr | hr | hr | hr | hr | hr | ⟨hr, hnsh⟩
    · rw [hr, List.takeWhile_cons, if_pos (by decide)] at htw
      rw [show ("SALES_HISTORY".toList : Str) = 'S' :: "ALES_HISTORY".toList from rfl] at htw
      injection htw with h1 _
      exact absurd h1 (by decide)
    · rw [hr] at htw; exact absurd htw (by decide)
    · rw [hr] at htw; exact absurd htw (by decide)
    · rw [hr] at htw; exact absurd htw (by decide)
    · rw [hr] at htw; exact absurd htw (by decide)
    · -- canonical_section s0 = "SALES_HISTORY": the field would have to be
      -- "Subject.…", which contains the lowercase 'u' no canonical field has
      rw [hr] at heq
      rw [hkey, show ("SALES_HISTORY".toList ++ '.' :: canonical_field f0 : Str) =
        "SALES_HISTORY".toList ++ '.' :: canonical_field f0 from rfl] at heq
      have hcf : ('.' :: ("Subject.".toList ++ f) : Str) = '.' :: canonical_field f0 :=
        List.append_cancel_left heq
      injection hcf with _ hcf
      have hu : ('u' : Char) ∈ canonical_field f0 := by
        rw [← hcf]
        rw [show ("Subject.".toList ++ f : Str) = 'S' :: 'u' :: ("bject.".toList ++ f) from rfl]
        exact List.mem_cons_of_mem _ (List.mem_cons_self _ _)
      have := canonical_field_notLow f0 'u' hu
      exact absurd this (by decide)
    · rw [hr] at htw; exact absurd htw (by decide)
    · rw [hr] at htw
      have hpre : ("SALES_HISTORY".toList : Str) <+: norm s0 := by
        rw [htw]
        exact List.takeWhile_prefix notDot
      have hsales : hasSub "SALES".toList (norm s0) = true :=
        hasSub_of_prefix _ _ _ hpre (by decide)
      have hhist : hasSub "HISTORY".toList (norm s0) = true :=
        hasSub_of_prefix _ _ _ hpre (by decide)
      exact hnsh ⟨hsales, hhist⟩
  · have hP : ("SALES_HISTORY.Subject.".toList ++ f : Str) =
      'S' :: ("ALES_HISTORY.Subject.".toList ++ f) := rfl
    simp only [FIELD_ONLY_SET, List.mem_cons, List.not_mem_nil, or_false] at hmem
    rcases hmem with hm | hm | hm | hm | hm | hm <;>
      (rw [hP] at hm; injection hm with h1 _; exact absurd h1 (by decide))

/-- C1 counterexample: the flat index of a document with `Depreciation`
leaves under both `RECONCILIATION` and `COST_APPROACH` stores `"500"`
under `"RECONCILIATION.DEPRECIATION"`, but `pick_value` for that very
pair answers from the bare field-only entry, which the later leaf
overwrote with `"600"`. -/
theorem C1_cex_roundtrip_fails :
    alookup (flatten_json c1doc) "RECONCILIATION.DEPRECIATION".toList = some "500".toList ∧
    pick_value "RECONCILIATION".toList "DEPRECIATION".toList (flatten_json c1doc) =
      "600".toList ∧
    ("600".toList : Str) ≠ "500".toList := by
  refine ⟨by decide, by decide, by decide⟩

/-- C1 (amended): for every composite key `"{section}.{field}"` present in
the FlatIndex whose field component is NOT in the field-only set,
`pick_value(section, field, flat)` returns exactly the stored value.
(For field-only fields rule 1 answers from the bare index instead, which
a later leaf with the same field may have overwritten.) -/
theorem C1_roundtrip_non_field_only (merged : JObj) (sect f v : Str)
    (hf : f ∉ FIELD_ONLY_SET)
    (h : alookup (flatten_json merged) (sect ++ '.' :: f) = some v) :
    pick_value sect f (flatten_json merged) = v := by
  rw [pick_value, if_neg hf]
  by_cases h2 : (f ∈ SALES_HISTORY_COMP_FIELDS && isPre headerCS sect) = true
  · rw [if_pos h2, fget, h]
    rfl
  rw [if_neg h2]
  by_cases h3 : isPre headerCS sect = true
  · rw [if_pos h3, fget, h]
    rfl
  rw [if_neg h3]
  by_cases h4 : sect = "SUBJECT".toList
  · rw [if_pos h4]
    subst h4
    rw [fget, h]
    rfl
  rw [if_neg h4]
  by_cases h5 : sect = "SALES_HISTORY_SUBJECT".toList
  · exfalso
    subst h5
    exact no_shs_composite_key merged f v h
  · rw [if_neg h5, fget, h]
    rfl

/-- C1 witness: for `{"SUBJECT": {"State": "WI"}}`, the composite key
`"SUBJECT.STATE"` holds `"WI"`, `STATE` is not field-only, and
`pick_value` returns `"WI"`. -/
theorem C1_roundtrip_non_field_only_witness :
    "STATE".toList ∉ FIELD_ONLY_SET ∧
    alookup (flatten_json subjDoc) ("SUBJECT".toList ++ '.' :: "STATE".toList) =
      some "WI".toList ∧
    pick_value "SUBJECT".toList "STATE".toList (flatten_json subjDoc) = "WI".toList :=
  ⟨by decide, by decide,
    C1_roundtrip_non_field_only subjDoc "SUBJECT".toList "STATE".toList "WI".toList
      (by decide) (by decide)⟩

/-- C10 counterexample: for the field-only field `POOL`, rule 1 of
`pick_value` fires before the `SALES_HISTORY_SUBJECT` bridge, and the
lookup returns the non-empty bare-index value, not the empty string. -/
theorem C10_cex_field_only_escapes :
    pick_value "SALES_HISTORY_SUBJECT".toList "POOL".toList (flatten_json poolDoc) =
      "YES".toList ∧
    ("YES".toList : Str) ≠ [] := by
  refine ⟨by decide, by decide⟩

/-- C10 (amended): for every FlatIndex produced by `flatten_json` and
every field NOT in the field-only set, resolving under the synthetic
section `SALES_HISTORY_SUBJECT` returns the empty string: the bridge key
`"SALES_HISTORY.Subject.{f}"` contains the lowercase segment `"Subject"`
and can never be a key of such an index. -/
theorem C10_shs_resolves_empty (merged : JObj) (f : Str)
    (hf : f ∉ FIELD_ONLY_SET) :
    pick_value "SALES_HISTORY_SUBJECT".toList f (flatten_json merged) = [] := by
  have hpre : isPre headerCS "SALES_HISTORY_SUBJECT".toList = false := by decide
  have hb2 : ¬((f ∈ SALES_HISTORY_COMP_FIELDS &&
      isPre headerCS "SALES_HISTORY_SUBJECT".toList) = true) := by
    rw [hpre, Bool.and_false]
    exact Bool.false_ne_true
  have hb3 : ¬(isPre headerCS "SALES_HISTORY_SUBJECT".toList = true) := by
    rw [hpre]
    exact Bool.false_ne_true
  have hb4 : ¬(("SALES_HISTORY_SUBJECT".toList : Str) = "SUBJECT".toList) := by decide
  rw [pick_value, if_neg hf, if_neg hb2, if_neg hb3, if_neg hb4, if_pos rfl, fget]
  cases halk : alookup (flatten_json merged) ("SALES_HISTORY.Subject.".toList ++ f) with
  | none => rfl
  | some v => exact absurd halk (fun hh => no_shs_bridge_key merged f v hh)

/-- C10 witness: with the `poolDoc` index and the non-field-only field
`STATE`, the synthetic section resolves to the empty string. -/
theorem C10_shs_resolves_empty_witness :
    "STATE".toList ∉ FIELD_ONLY_SET ∧
    pick_value "SALES_HISTORY_SUBJECT".toList "STATE".toList (flatten_json poolDoc) = [] :=
  ⟨by decide, C10_shs_resolves_empty poolDoc "STATE".toList (by decide)⟩
